import Mathlib

/-!
Verification of the GiST R-tree index core for temporal numbers
(`tnumber_gist.c` of MobilityDB): bounding-box arithmetic with NaN-aware
comparisons, the leaf/internal predicate-evaluation tables, the compress
method, the consistent method, and the double-sorting node-splitting
algorithm (`gist_tbox_picksplit`) with its trivial fallback.

Modelling conventions:
* `float8` values are modelled by `F8`: NaN, the two infinities, or a finite
  rational.  Rounding of finite arithmetic is not modelled (finite results
  are exact rationals); the special values follow IEEE-754 semantics.
* `float8_cmp_internal` (PostgreSQL, not part of the reviewed sources) is
  modelled from the spec: a three-way total comparison that treats NaN as
  the largest value.
* Native C floating-point comparisons (`<`, `<=`, `==`, ...), which are
  false whenever an operand is NaN, are modelled by `nativeLT`, `nativeLE`,
  `nativeEQ`, `nativeGT`, `nativeGE`.
* The entry vector of the split method is a `List TBOX`; entry `i` of the
  list corresponds to the C entry at offset `i + 1` (`FirstOffsetNumber = 1`).
* `qsort` is modelled by `List.mergeSort` with the C comparator turned into
  a boolean "less or equal" test; the C scans below depend on the sorted
  arrays only through properties that are invariant under the choice of
  sorted permutation, matching `qsort`'s unspecified order of equal keys.
-/

/-- Model of a C `double` (float8) value: NaN, ±infinity, or a finite
rational number. -/
inductive F8 where
  | nan : F8
  | pinf : F8
  | ninf : F8
  | fin : ℚ → F8
deriving DecidableEq, Repr, Inhabited

namespace F8

/-- IEEE-754 subtraction on `F8` (finite arithmetic exact). -/
def sub : F8 → F8 → F8
  | .nan, _ => .nan
  | _, .nan => .nan
  | .pinf, .pinf => .nan
  | .pinf, _ => .pinf
  | .ninf, .ninf => .nan
  | .ninf, _ => .ninf
  | .fin _, .pinf => .ninf
  | .fin _, .ninf => .pinf
  | .fin a, .fin b => .fin (a - b)

/-- IEEE-754 multiplication on `F8` (finite arithmetic exact);
`0 * ±inf = NaN`. -/
def mul : F8 → F8 → F8
  | .nan, _ => .nan
  | _, .nan => .nan
  | .pinf, .pinf => .pinf
  | .pinf, .ninf => .ninf
  | .ninf, .pinf => .ninf
  | .ninf, .ninf => .pinf
  | .pinf, .fin q => if q = 0 then .nan else if 0 < q then .pinf else .ninf
  | .fin q, .pinf => if q = 0 then .nan else if 0 < q then .pinf else .ninf
  | .ninf, .fin q => if q = 0 then .nan else if 0 < q then .ninf else .pinf
  | .fin q, .ninf => if q = 0 then .nan else if 0 < q then .ninf else .pinf
  | .fin a, .fin b => .fin (a * b)

/-- IEEE-754 division on `F8` (finite arithmetic exact); the sign of zero is
not modelled, so `x / 0` takes the sign of `x` and `0 / 0 = NaN`. -/
def div : F8 → F8 → F8
  | .nan, _ => .nan
  | _, .nan => .nan
  | .pinf, .pinf => .nan
  | .pinf, .ninf => .nan
  | .ninf, .pinf => .nan
  | .ninf, .ninf => .nan
  | .pinf, .fin _ => .pinf
  | .ninf, .fin _ => .ninf
  | .fin _, .pinf => .fin 0
  | .fin _, .ninf => .fin 0
  | .fin a, .fin b =>
      if b = 0 then (if a = 0 then .nan else if 0 < a then .pinf else .ninf)
      else .fin (a / b)

/-- IEEE-754 negation. -/
def neg : F8 → F8
  | .nan => .nan
  | .pinf => .ninf
  | .ninf => .pinf
  | .fin q => .fin (-q)

end F8

/-- Modelled from the spec: `float8_cmp_internal` (PostgreSQL's NaN-aware
three-way float8 comparison, declared in `utils/builtins.h` but not among the
reviewed sources).  Per the spec, it is a total order that "treats NaN as the
largest value": `NaN > +infinity > finite > -infinity`. -/
def float8_cmp_internal : F8 → F8 → Int
  | .nan, .nan => 0
  | .nan, _ => 1
  | _, .nan => -1
  | .pinf, .pinf => 0
  | .pinf, _ => 1
  | _, .pinf => -1
  | .ninf, .ninf => 0
  | .ninf, _ => -1
  | _, .ninf => 1
  | .fin a, .fin b => if a < b then -1 else if a = b then 0 else 1

/-- `FLOAT8_EQ` macro of `tnumber_gist.c`. -/
def FLOAT8_EQ (a b : F8) : Bool := float8_cmp_internal a b == 0
/-- `FLOAT8_LT` macro of `tnumber_gist.c`. -/
def FLOAT8_LT (a b : F8) : Bool := float8_cmp_internal a b < 0
/-- `FLOAT8_LE` macro of `tnumber_gist.c`. -/
def FLOAT8_LE (a b : F8) : Bool := float8_cmp_internal a b ≤ 0
/-- `FLOAT8_GT` macro of `tnumber_gist.c`. -/
def FLOAT8_GT (a b : F8) : Bool := float8_cmp_internal a b > 0
/-- `FLOAT8_GE` macro of `tnumber_gist.c`. -/
def FLOAT8_GE (a b : F8) : Bool := float8_cmp_internal a b ≥ 0
/-- `FLOAT8_MAX` macro of `tnumber_gist.c`. -/
def FLOAT8_MAX (a b : F8) : F8 := if FLOAT8_GT a b then a else b
/-- `FLOAT8_MIN` macro of `tnumber_gist.c`. -/
def FLOAT8_MIN (a b : F8) : F8 := if FLOAT8_LT a b then a else b

/-- Native C floating-point `<` : false whenever an operand is NaN. -/
def nativeLT : F8 → F8 → Bool
  | .nan, _ => false
  | _, .nan => false
  | .ninf, .ninf => false
  | .ninf, _ => true
  | _, .ninf => false
  | .pinf, _ => false
  | _, .pinf => true
  | .fin a, .fin b => a < b

/-- Native C floating-point `<=` : false whenever an operand is NaN. -/
def nativeLE : F8 → F8 → Bool
  | .nan, _ => false
  | _, .nan => false
  | .ninf, _ => true
  | _, .ninf => false
  | _, .pinf => true
  | .pinf, _ => false
  | .fin a, .fin b => a ≤ b

/-- Native C floating-point `==` : false whenever an operand is NaN. -/
def nativeEQ : F8 → F8 → Bool
  | .nan, _ => false
  | _, .nan => false
  | a, b => a == b

/-- Native C floating-point `>` . -/
def nativeGT (a b : F8) : Bool := nativeLT b a
/-- Native C floating-point `>=` . -/
def nativeGE (a b : F8) : Bool := nativeLE b a

/-- PostgreSQL's `Abs` macro, `((x) >= 0 ? (x) : -(x))`, on float8
(NaN maps to NaN). -/
def f8Abs (x : F8) : F8 := if nativeGE x (F8.fin 0) then x else x.neg

/-- Temporal box: the index key type of the R-tree.  One numeric axis
`[xmin, xmax]` and one temporal axis `[tmin, tmax]`, all four bounds
float8. -/
structure TBOX where
  xmin : F8
  xmax : F8
  tmin : F8
  tmax : F8
deriving DecidableEq, Repr, Inhabited

/-- `rt_tbox_union` of `tnumber_gist.c`: component-wise max of maxima and
min of minima. -/
def rt_tbox_union (a b : TBOX) : TBOX :=
  { xmax := FLOAT8_MAX a.xmax b.xmax
    tmax := FLOAT8_MAX a.tmax b.tmax
    xmin := FLOAT8_MIN a.xmin b.xmin
    tmin := FLOAT8_MIN a.tmin b.tmin }

/-- `size_tbox` of `tnumber_gist.c`: size of a TBOX for penalty-calculation
purposes. -/
def size_tbox (box : TBOX) : F8 :=
  if FLOAT8_LE box.xmax box.xmin || FLOAT8_LE box.tmax box.tmin then .fin 0
  else if box.xmax = .nan then .pinf
  else (box.xmax.sub box.xmin).mul (box.tmax.sub box.tmin)

/-- `box_penalty` of `tnumber_gist.c`: amount by which the union of the two
boxes is larger than the original box's area. -/
def box_penalty (original new : TBOX) : F8 :=
  (size_tbox (rt_tbox_union original new)).sub (size_tbox original)

/-- `adjustBox` of `tnumber_gist.c`: increase box `b` to include `addon`. -/
def adjustBox (b addon : TBOX) : TBOX :=
  { xmax := if FLOAT8_LT b.xmax addon.xmax then addon.xmax else b.xmax
    xmin := if FLOAT8_GT b.xmin addon.xmin then addon.xmin else b.xmin
    tmax := if FLOAT8_LT b.tmax addon.tmax then addon.tmax else b.tmax
    tmin := if FLOAT8_GT b.tmin addon.tmin then addon.tmin else b.tmin }

/-- The 12 recognized GiST strategy numbers dispatched by the consistent
methods (PostgreSQL `RT*StrategyNumber` constants). -/
inductive StrategyNumber where
  | RTOverlap | RTContains | RTContainedBy | RTSame
  | RTLeft | RTOverLeft | RTRight | RTOverRight
  | RTBefore | RTOverBefore | RTAfter | RTOverAfter
deriving DecidableEq, Repr

/-- Modelled from the spec: `overlaps_tbox_tbox_internal`
(`temporal_boxops.c`, not among the reviewed sources) — the two boxes
intersect on both axes; comparisons NaN-aware per the spec. -/
def overlaps_tbox_tbox_internal (a b : TBOX) : Bool :=
  FLOAT8_LE a.xmin b.xmax && FLOAT8_LE b.xmin a.xmax &&
  FLOAT8_LE a.tmin b.tmax && FLOAT8_LE b.tmin a.tmax

/-- Modelled from the spec: `contains_tbox_tbox_internal`
(`temporal_boxops.c`, not among the reviewed sources) — the first box
contains the second on both axes. -/
def contains_tbox_tbox_internal (a b : TBOX) : Bool :=
  FLOAT8_LE a.xmin b.xmin && FLOAT8_LE b.xmax a.xmax &&
  FLOAT8_LE a.tmin b.tmin && FLOAT8_LE b.tmax a.tmax

/-- Modelled from the spec: `contained_tbox_tbox_internal`
(`temporal_boxops.c`, not among the reviewed sources). -/
def contained_tbox_tbox_internal (a b : TBOX) : Bool :=
  contains_tbox_tbox_internal b a

/-- Modelled from the spec: `same_tbox_tbox_internal`
(`temporal_boxops.c`, not among the reviewed sources) — all four bounds
exactly (NaN-aware) equal. -/
def same_tbox_tbox_internal (a b : TBOX) : Bool :=
  FLOAT8_EQ a.xmin b.xmin && FLOAT8_EQ a.xmax b.xmax &&
  FLOAT8_EQ a.tmin b.tmin && FLOAT8_EQ a.tmax b.tmax

/-- Modelled from the spec: `left_tbox_tbox_internal` (`temporal_posops.c`,
not among the reviewed sources) — strictly left on the numeric axis. -/
def left_tbox_tbox_internal (a b : TBOX) : Bool := FLOAT8_LT a.xmax b.xmin

/-- Modelled from the spec: `overleft_tbox_tbox_internal`
(`temporal_posops.c`, not among the reviewed sources) — does not extend to
the right of. -/
def overleft_tbox_tbox_internal (a b : TBOX) : Bool := FLOAT8_LE a.xmax b.xmax

/-- Modelled from the spec: `right_tbox_tbox_internal` (`temporal_posops.c`,
not among the reviewed sources) — strictly right on the numeric axis. -/
def right_tbox_tbox_internal (a b : TBOX) : Bool := FLOAT8_GT a.xmin b.xmax

/-- Modelled from the spec: `overright_tbox_tbox_internal`
(`temporal_posops.c`, not among the reviewed sources) — does not extend to
the left of. -/
def overright_tbox_tbox_internal (a b : TBOX) : Bool := FLOAT8_GE a.xmin b.xmin

/-- Modelled from the spec: `before_tbox_tbox_internal`
(`temporal_posops.c`, not among the reviewed sources) — strictly before on
the temporal axis. -/
def before_tbox_tbox_internal (a b : TBOX) : Bool := FLOAT8_LT a.tmax b.tmin

/-- Modelled from the spec: `overbefore_tbox_tbox_internal`
(`temporal_posops.c`, not among the reviewed sources) — does not extend
after. -/
def overbefore_tbox_tbox_internal (a b : TBOX) : Bool := FLOAT8_LE a.tmax b.tmax

/-- Modelled from the spec: `after_tbox_tbox_internal`
(`temporal_posops.c`, not among the reviewed sources) — strictly after on
the temporal axis. -/
def after_tbox_tbox_internal (a b : TBOX) : Bool := FLOAT8_GT a.tmin b.tmax

/-- Modelled from the spec: `overafter_tbox_tbox_internal`
(`temporal_posops.c`, not among the reviewed sources) — does not extend
before. -/
def overafter_tbox_tbox_internal (a b : TBOX) : Bool := FLOAT8_GE a.tmin b.tmin

/-- `index_leaf_consistent_tbox` of `tnumber_gist.c`.  Note that the four
directional strategies Left/Right/Before/After are evaluated by *native* C
comparisons on the raw bounds (the commented-out calls in the source were
replaced by `key->xmax <= query->xmin` etc.), while the remaining strategies
call the `_tbox_tbox_internal` predicates. -/
def index_leaf_consistent_tbox (key query : TBOX) : StrategyNumber → Bool
  | .RTOverlap => overlaps_tbox_tbox_internal key query
  | .RTContains => contains_tbox_tbox_internal key query
  | .RTContainedBy => contained_tbox_tbox_internal key query
  | .RTSame => same_tbox_tbox_internal key query
  | .RTLeft => nativeLE key.xmax query.xmin
  | .RTOverLeft => overleft_tbox_tbox_internal key query
  | .RTRight => nativeGE key.xmin query.xmax
  | .RTOverRight => overright_tbox_tbox_internal key query
  | .RTBefore => nativeLE key.tmax query.tmin
  | .RTOverBefore => overbefore_tbox_tbox_internal key query
  | .RTAfter => nativeGE key.tmin query.tmax
  | .RTOverAfter => overafter_tbox_tbox_internal key query

/-- `gist_internal_consistent_tbox` of `tnumber_gist.c`: internal-page
(pruning) consistency. -/
def gist_internal_consistent_tbox (key query : TBOX) : StrategyNumber → Bool
  | .RTOverlap => overlaps_tbox_tbox_internal key query
  | .RTContainedBy => overlaps_tbox_tbox_internal key query
  | .RTContains => contains_tbox_tbox_internal key query
  | .RTSame => contains_tbox_tbox_internal key query
  | .RTLeft => !overright_tbox_tbox_internal key query
  | .RTOverLeft => !right_tbox_tbox_internal key query
  | .RTRight => !overleft_tbox_tbox_internal key query
  | .RTOverRight => !left_tbox_tbox_internal key query
  | .RTBefore => !overafter_tbox_tbox_internal key query
  | .RTOverBefore => !after_tbox_tbox_internal key query
  | .RTAfter => !overbefore_tbox_tbox_internal key query
  | .RTOverAfter => !before_tbox_tbox_internal key query

/-! ### Compress and consistent methods -/

/-- A GiST index entry as seen by the compress method: a key datum plus the
`leafkey` flag (the `rel`, `page`, `offset` fields of the C `GISTENTRY` do
not influence the key computation and are not modelled). -/
structure GISTENTRY (δ : Type) where
  key : δ
  leafkey : Bool
deriving DecidableEq, Repr

/-- `gist_tnumber_compress` of `tnumber_gist.c`, parametric in the datum
type `δ`, in `temporal_bbox` (the external bounding-box extraction
collaborator, modelled from the spec as an abstract function) and in the
embedding of a freshly allocated TBOX back into a datum.  A leaf key is
replaced by its bounding box with `leafkey` reset to false
(`gistentryinit(..., false)`); any other entry is returned unchanged. -/
def gist_tnumber_compress {δ : Type} (temporal_bbox : δ → TBOX)
    (boxDatum : TBOX → δ) (entry : GISTENTRY δ) : GISTENTRY δ :=
  if entry.leafkey then
    { key := boxDatum (temporal_bbox entry.key), leafkey := false }
  else entry

/-- The query argument of `gist_tnumber_consistent` after subtype dispatch:
one of the recognized subtypes carrying its (possibly NULL) value, or an
unrecognized subtype (which the C code reports with `elog(ERROR, ...)`).
`ρ` is the abstract type of range values, `τ` of temporal values. -/
inductive ConsistentQuery (ρ τ : Type) where
  | intrange (r : Option ρ)
  | floatrange (r : Option ρ)
  | tbox (b : Option TBOX)
  | temporal (t : Option τ)
  | unknownSubtype

/-- `gist_tnumber_consistent` of `tnumber_gist.c`, parametric in the
external query-to-box conversions (`intrange_to_tbox_internal`,
`floatrange_to_tbox_internal`, `temporal_bbox`; collaborators not among the
reviewed sources, modelled as abstract functions).  The returned pair is
`(result, recheck)`; `Except.error ()` models the `elog(ERROR)` abort for an
unrecognized subtype.  The C code executes `*recheck = true` before any
other action, so every normally-returning path reports `recheck = true`. -/
def gist_tnumber_consistent {ρ τ : Type}
    (intrange_to_tbox floatrange_to_tbox : ρ → TBOX) (temporal_bbox : τ → TBOX)
    (key : Option TBOX) (query : ConsistentQuery ρ τ)
    (strategy : StrategyNumber) (leaf : Bool) : Except Unit (Bool × Bool) :=
  let recheck := true
  match key with
  | none => .ok (false, recheck)
  | some key =>
    let answer (q : TBOX) : Except Unit (Bool × Bool) :=
      .ok ((if leaf then index_leaf_consistent_tbox key q strategy
            else gist_internal_consistent_tbox key q strategy), recheck)
    match query with
    | .intrange none => .ok (false, recheck)
    | .intrange (some r) => answer (intrange_to_tbox r)
    | .floatrange none => .ok (false, recheck)
    | .floatrange (some r) => answer (floatrange_to_tbox r)
    | .tbox none => .ok (false, recheck)
    | .tbox (some b) => answer b
    | .temporal none => .ok (false, recheck)
    | .temporal (some t) => answer (temporal_bbox t)
    | .unknownSubtype => .error ()

/-! ### The split method -/

/-- `LIMIT_RATIO` of `tnumber_gist.c`: minimum accepted ratio of a split
(the C literal `0.3` is exactly the rational 3/10 for comparison purposes in
this model; double rounding of the literal is not modelled). -/
def splitLimit : ℚ := 3 / 10

/-- Projection of a box onto one axis (`SplitInterval` of
`tnumber_gist.c`). -/
structure SplitInterval where
  lower : F8
  upper : F8
deriving DecidableEq, Repr, Inhabited

/-- `interval_cmp_lower` of `tnumber_gist.c`. -/
def interval_cmp_lower (i1 i2 : SplitInterval) : Int :=
  float8_cmp_internal i1.lower i2.lower

/-- `interval_cmp_upper` of `tnumber_gist.c`. -/
def interval_cmp_upper (i1 i2 : SplitInterval) : Int :=
  float8_cmp_internal i1.upper i2.upper

/-- `non_negative` of `tnumber_gist.c`: replace a negative (or NaN) value
with zero (the float4 narrowing of the argument is not modelled). -/
def non_negative (val : F8) : F8 := if nativeGE val (F8.fin 0) then val else F8.fin 0

/-- `ConsiderSplitContext` of `tnumber_gist.c`.  The C `float4` fields
`ratio` and `overlap` are modelled without narrowing (`ratio` is an exact
rational of integer counts; `overlap` an `F8`). -/
structure ConsiderSplitContext where
  entriesCount : Nat
  boundingBox : TBOX
  first : Bool
  leftUpper : F8
  rightLower : F8
  ratio : ℚ
  overlap : F8
  dim : Nat
  range : F8
deriving Repr

/-- The zero-initialized (`memset 0`) context with `entriesCount` and
`boundingBox` filled in and `first = true`, as set up by
`gist_tbox_picksplit` before the axis scans. -/
def initSplitContext (n : Nat) (bbox : TBOX) : ConsiderSplitContext :=
  { entriesCount := n, boundingBox := bbox, first := true,
    leftUpper := .fin 0, rightLower := .fin 0, ratio := 0,
    overlap := .fin 0, dim := 0, range := .fin 0 }

/-- The entry-distribution count assumed by `g_tbox_consider_split` for `n`
entries when `minLeftCount` must go left and at most `maxLeftCount` can:
the most uniform distribution of the common entries. -/
def considerLeftCount (n minLeftCount maxLeftCount : Nat) : Nat :=
  if minLeftCount ≥ (n + 1) / 2 then minLeftCount
  else if maxLeftCount ≤ n / 2 then maxLeftCount
  else n / 2

/-- The split ratio computed by `g_tbox_consider_split`: quotient between
the size of the lesser group and the total entries count (the C `float4`
value is modelled as an exact rational). -/
def considerRatio (n minLeftCount maxLeftCount : Nat) : ℚ :=
  ((min (considerLeftCount n minLeftCount maxLeftCount)
      (n - considerLeftCount n minLeftCount maxLeftCount) : ℕ) : ℚ) / (n : ℚ)

/-- The `selectthis` decision of `g_tbox_consider_split`: first candidate
always wins; within the same axis prefer smaller overlap, then better
ratio; across axes prefer smaller non-negative-clamped overlap, then bigger
range. -/
def considerSelectThis (context : ConsiderSplitContext) (dimNum : Nat)
    (ratio : ℚ) (range overlap : F8) : Bool :=
  if context.first then true
  else if context.dim == dimNum then
    nativeLT overlap context.overlap ||
      (nativeEQ overlap context.overlap && decide (ratio > context.ratio))
  else
    nativeLT (non_negative overlap) (non_negative context.overlap) ||
      (nativeGT range context.range &&
        nativeLE (non_negative overlap) (non_negative context.overlap))

/-- `g_tbox_consider_split` of `tnumber_gist.c`: consider replacing the
currently selected split with the candidate `(rightLower, leftUpper)` on
axis `dimNum`, where `minLeftCount` entries must go left and at most
`maxLeftCount` can (the local computations of the C function are the named
functions above). -/
def g_tbox_consider_split (context : ConsiderSplitContext) (dimNum : Nat)
    (rightLower : F8) (minLeftCount : Nat) (leftUpper : F8)
    (maxLeftCount : Nat) : ConsiderSplitContext :=
  let ratio := considerRatio context.entriesCount minLeftCount maxLeftCount
  if ratio > splitLimit then
    let range : F8 :=
      if dimNum == 0 then context.boundingBox.xmax.sub context.boundingBox.xmin
      else context.boundingBox.tmax.sub context.boundingBox.tmin
    let overlap : F8 := (leftUpper.sub rightLower).div range
    if considerSelectThis context dimNum ratio range overlap then
      { context with
        first := false
        ratio := ratio
        range := range
        overlap := overlap
        rightLower := rightLower
        leftUpper := leftUpper
        dim := dimNum }
    else context
  else context

/-- The first inner `while` of the first scan loop of
`gist_tbox_picksplit`: starting at position `i1` of the lower-sorted array,
consume the run of intervals whose lower bound compares equal to
`rightLower`, folding their upper bounds into `leftUpper`.  Returns the
number of consumed intervals and the new `leftUpper` (the new C index is
`i1` plus that count). -/
def consumeLower (arr : List SplitInterval) (rightLower : F8) (i1 : Nat)
    (leftUpper : F8) : Nat × F8 :=
  if h : i1 < arr.length ∧ FLOAT8_EQ rightLower (arr.getD i1 default).lower then
    let p := consumeLower arr rightLower (i1 + 1)
      (if FLOAT8_LT leftUpper (arr.getD i1 default).upper then
        (arr.getD i1 default).upper else leftUpper)
    (p.1 + 1, p.2)
  else (0, leftUpper)
termination_by arr.length - i1
decreasing_by exact Nat.sub_succ_lt_self _ _ h.1

/-- The second inner `while` of the first scan loop: advance `i2` over the
upper-sorted array past all intervals whose upper bound is at most
`leftUpper` (counting the intervals that fit into the left group). -/
def advanceUpper (arrU : List SplitInterval) (leftUpper : F8) (i2 : Nat) : Nat :=
  if h : i2 < arrU.length ∧ FLOAT8_LE (arrU.getD i2 default).upper leftUpper then
    advanceUpper arrU leftUpper (i2 + 1)
  else i2
termination_by arrU.length - i2
decreasing_by exact Nat.sub_succ_lt_self _ _ h.1

/-- The first inner `while` of the second (descending) scan loop, with the C
index `i2` represented as `j2 = i2 + 1`: consume downward the run of
intervals of the upper-sorted array whose upper bound compares equal to
`leftUpper`, folding their lower bounds into `rightLower`.  Returns the
number of consumed intervals and the new `rightLower` (the new C index is
`j2` minus that count). -/
def consumeUpper (arrU : List SplitInterval) (leftUpper : F8) (j2 : Nat)
    (rightLower : F8) : Nat × F8 :=
  if h : 0 < j2 ∧ FLOAT8_EQ leftUpper (arrU.getD (j2 - 1) default).upper then
    let p := consumeUpper arrU leftUpper (j2 - 1)
      (if FLOAT8_GT rightLower (arrU.getD (j2 - 1) default).lower then
        (arrU.getD (j2 - 1) default).lower else rightLower)
    (p.1 + 1, p.2)
  else (0, rightLower)
termination_by j2
decreasing_by exact Nat.sub_one_lt_of_lt h.1

/-- The second inner `while` of the second scan loop, with the C index `i1`
represented as `j1 = i1 + 1`: move `j1` down past all intervals of the
lower-sorted array whose lower bound is at least `rightLower` (the intervals
that fit into the right group). -/
def retreatLower (arr : List SplitInterval) (rightLower : F8) (j1 : Nat) : Nat :=
  if h : 0 < j1 ∧ FLOAT8_GE (arr.getD (j1 - 1) default).lower rightLower then
    retreatLower arr rightLower (j1 - 1)
  else j1
termination_by j1
decreasing_by exact Nat.sub_one_lt_of_lt h.1

/-- The first (ascending) candidate-scan loop of `gist_tbox_picksplit`:
iterate over the lower bounds of the right group, finding the smallest
possible upper bound of the left group.  At the head of each outer C
iteration the invariant `rightLower = intervalsLower[i1].lower` holds (it is
established before the loop and re-established by the
`rightLower = intervalsLower[i1].lower` assignment), so the first iteration
of the inner `while` always consumes the interval at `i1`; that first
iteration is unrolled here, which makes the progress of `i1` structural. -/
def scan1 (arr arrU : List SplitInterval) (dim : Nat)
    (ctx : ConsiderSplitContext) (i1 i2 : Nat) (lu : F8) :
    ConsiderSplitContext :=
  if h : i1 < arr.length then
    let rl := (arr.getD i1 default).lower
    let lu0 := if FLOAT8_LT lu (arr.getD i1 default).upper then
      (arr.getD i1 default).upper else lu
    let c := consumeLower arr rl (i1 + 1) lu0
    let i1' := i1 + 1 + c.1
    if _h2 : i1' < arr.length then
      let rl' := (arr.getD i1' default).lower
      let i2' := advanceUpper arrU c.2 i2
      scan1 arr arrU dim (g_tbox_consider_split ctx dim rl' i1' c.2 i2')
        i1' i2' c.2
    else ctx
  else ctx
termination_by arr.length - i1
decreasing_by omega

/-- The second (descending) candidate-scan loop of `gist_tbox_picksplit`,
with the C indices `i1`, `i2` represented as `j1 = i1 + 1`, `j2 = i2 + 1`:
iterate over the upper bounds of the left group, finding the greatest
possible lower bound of the right group.  At the head of each outer C
iteration the invariant `leftUpper = intervalsUpper[i2].upper` holds, so the
first iteration of the inner `while` always consumes the interval at `i2`;
that first iteration is unrolled here, which makes the decrease of `j2`
structural. -/
def scan2 (arr arrU : List SplitInterval) (dim : Nat)
    (ctx : ConsiderSplitContext) (j1 j2 : Nat) (rl : F8) :
    ConsiderSplitContext :=
  if h : 0 < j2 then
    let lu := (arrU.getD (j2 - 1) default).upper
    let rl0 := if FLOAT8_GT rl (arrU.getD (j2 - 1) default).lower then
      (arrU.getD (j2 - 1) default).lower else rl
    let c := consumeUpper arrU lu (j2 - 1) rl0
    let j2' := j2 - 1 - c.1
    if _h2 : 0 < j2' then
      let lu' := (arrU.getD (j2' - 1) default).upper
      let j1' := retreatLower arr c.2 j1
      scan2 arr arrU dim (g_tbox_consider_split ctx dim c.2 j1' lu' j2')
        j1' j2' c.2
    else ctx
  else ctx
termination_by j2
decreasing_by omega

/-- Projection of a box onto axis `dim` (`dim = 0`: numeric axis,
`dim = 1`: temporal axis), as performed at the start of each axis iteration
of `gist_tbox_picksplit`. -/
def projInterval (dim : Nat) (b : TBOX) : SplitInterval :=
  if dim == 0 then ⟨b.xmin, b.xmax⟩ else ⟨b.tmin, b.tmax⟩

/-- The boolean "less or equal" form of `interval_cmp_lower` used to model
the `qsort` call on the array sorted by lower bound. -/
def leLower (a b : SplitInterval) : Bool := decide (interval_cmp_lower a b ≤ 0)

/-- The boolean "less or equal" form of `interval_cmp_upper` used to model
the `qsort` call on the array sorted by upper bound. -/
def leUpper (a b : SplitInterval) : Bool := decide (interval_cmp_upper a b ≤ 0)

/-- One axis iteration of the `for (dim = 0; dim < 2; dim++)` loop of
`gist_tbox_picksplit`: project all entries onto the axis, sort the
projections by lower and by upper bound, and run the two candidate scans
with their C initializations (`rightLower = intervalsLower[0].lower` is
implicit in `scan1`; `leftUpper = intervalsUpper[0].lower` and, for the
second loop, `rightLower = intervalsLower[nentries-1].upper` and
`leftUpper = intervalsUpper[nentries-1].upper` are the literal C seeds). -/
def runAxis (boxes : List TBOX) (dim : Nat) (ctx : ConsiderSplitContext) :
    ConsiderSplitContext :=
  let ivs := boxes.map (projInterval dim)
  let sl := ivs.mergeSort leLower
  let su := ivs.mergeSort leUpper
  let ctx1 := scan1 sl su dim ctx 0 0 (su.getD 0 default).lower
  scan2 sl su dim ctx1 sl.length su.length (sl.getD (sl.length - 1) default).upper

/-- The overall minimum bounding box over all entries, as computed by the
first loop of `gist_tbox_picksplit` (first entry copied, the rest folded in
with `adjustBox`).  The C code requires at least one entry. -/
def computeBoundingBox (boxes : List TBOX) : TBOX :=
  match boxes with
  | [] => default
  | b :: rest => rest.foldl adjustBox b

/-- The result structure of the split method (`GIST_SPLITVEC`): the two
offset lists and the two union boxes (`none` models the C `NULL`
initialization of the fallback's accumulators). -/
structure GIST_SPLITVEC where
  spl_left : List Nat
  spl_right : List Nat
  spl_ldatum : Option TBOX
  spl_rdatum : Option TBOX
deriving DecidableEq, Repr

/-- One iteration of the loop of `tbox_fallbackSplit`, for entry `p.2` at
offset `p.1 + 1` with `maxoff` entries in total: the first `maxoff / 2`
offsets go left, the rest right, and the matching union box is grown
(`NULL` accumulator replaced by a copy of the current box). -/
def fallbackStep (maxoff : Nat) (v : GIST_SPLITVEC) (p : Nat × TBOX) :
    GIST_SPLITVEC :=
  if p.1 + 1 ≤ maxoff / 2 then
    { v with
      spl_left := v.spl_left ++ [p.1 + 1]
      spl_ldatum := some (match v.spl_ldatum with
        | none => p.2
        | some u => adjustBox u p.2) }
  else
    { v with
      spl_right := v.spl_right ++ [p.1 + 1]
      spl_rdatum := some (match v.spl_rdatum with
        | none => p.2
        | some u => adjustBox u p.2) }

/-- `tbox_fallbackSplit` of `tnumber_gist.c`: trivial split placing the
first half of the entries (offsets `1 .. maxoff/2`, in input order) on the
left page and the rest on the right page, accumulating the union boxes. -/
def tbox_fallbackSplit (boxes : List TBOX) : GIST_SPLITVEC :=
  boxes.enum.foldl (fallbackStep boxes.length) ⟨[], [], none, none⟩

/-- `CommonEntry` of `tnumber_gist.c`: the offset of an entry that fits both
groups, with the delta between its insertion penalties. -/
structure CommonEntry where
  index : Nat
  delta : F8
deriving DecidableEq, Repr

/-- `common_entry_cmp` of `tnumber_gist.c`: compare common entries by their
deltas with native float comparisons. -/
def common_entry_cmp (i1 i2 : CommonEntry) : Int :=
  if nativeLT i1.delta i2.delta then -1
  else if nativeLT i2.delta i1.delta then 1
  else 0

/-- The boolean "less or equal" form of `common_entry_cmp` used to model the
`qsort` call on the common entries. -/
def leCommon (a b : CommonEntry) : Bool := decide (common_entry_cmp a b ≤ 0)

/-- The mutable state threaded through the assignment phase of
`gist_tbox_picksplit`: the two offset lists, the two group bounding boxes
(initially `palloc0`-zeroed; a group's box is overwritten by the first entry
placed in it), and the collected offsets of common entries. -/
structure AssignState where
  spl_left : List Nat
  spl_right : List Nat
  leftBox : TBOX
  rightBox : TBOX
  commons : List Nat
deriving DecidableEq, Repr

/-- The all-zero box produced by `palloc0(sizeof(TBOX))`. -/
def zeroBox : TBOX := ⟨.fin 0, .fin 0, .fin 0, .fin 0⟩

/-- The `PLACE_LEFT` macro of `gist_tbox_picksplit`. -/
def placeLeft (st : AssignState) (box : TBOX) (off : Nat) : AssignState :=
  { st with
    leftBox := if 0 < st.spl_left.length then adjustBox st.leftBox box else box
    spl_left := st.spl_left ++ [off] }

/-- The `PLACE_RIGHT` macro of `gist_tbox_picksplit`. -/
def placeRight (st : AssignState) (box : TBOX) (off : Nat) : AssignState :=
  { st with
    rightBox := if 0 < st.spl_right.length then adjustBox st.rightBox box else box
    spl_right := st.spl_right ++ [off] }

/-- The first assignment loop of `gist_tbox_picksplit`: distribute the
entries that can be placed unambiguously relative to the selected split
`(ctx.rightLower, ctx.leftUpper)` on axis `ctx.dim`, and collect the common
entries.  The argument list carries `(offset, box)` pairs in input order. -/
def placeUnambiguous (ctx : ConsiderSplitContext) :
    List (Nat × TBOX) → AssignState → AssignState
  | [], st => st
  | (off, box) :: rest, st =>
    let iv := projInterval ctx.dim box
    let st' :=
      if FLOAT8_LE iv.upper ctx.leftUpper then
        if FLOAT8_GE iv.lower ctx.rightLower then
          { st with commons := st.commons ++ [off] }
        else placeLeft st box off
      else placeRight st box off
    placeUnambiguous ctx rest st'

/-- The common-entry distribution loop of `gist_tbox_picksplit`: place each
common entry (already sorted by delta), forcing a group whenever the
remaining entries are needed there to reach the quota `m`, and otherwise
choosing the group with the smaller insertion penalty. -/
def distributeCommons (boxes : List TBOX) (m : Nat) :
    List CommonEntry → AssignState → AssignState
  | [], st => st
  | ce :: rest, st =>
    let box := boxes.getD (ce.index - 1) default
    let st' :=
      if st.spl_left.length + (rest.length + 1) ≤ m then placeLeft st box ce.index
      else if st.spl_right.length + (rest.length + 1) ≤ m then
        placeRight st box ce.index
      else if nativeLT (box_penalty st.leftBox box) (box_penalty st.rightBox box)
        then placeLeft st box ce.index
      else placeRight st box ce.index
    distributeCommons boxes m rest st'

/-- The split context produced by the two axis iterations of
`gist_tbox_picksplit` (the state of `context` right after the
`for (dim = 0; dim < 2; dim++)` loop). -/
def pickSplitContext (boxes : List TBOX) : ConsiderSplitContext :=
  runAxis boxes 1
    (runAxis boxes 0 (initSplitContext boxes.length (computeBoundingBox boxes)))

/-- The assignment phase of `gist_tbox_picksplit` (everything after the
`if (context.first)` fallback test): distribute the unambiguous entries,
then score, sort and distribute the common entries with quota
`m = ceil(LIMIT_RATIO * nentries)` (for natural `nentries` this ceiling is
exactly `(3 * nentries + 9) / 10`). -/
def doubleSortingSplit (boxes : List TBOX) : GIST_SPLITVEC :=
  let nentries := boxes.length
  let ctx := pickSplitContext boxes
  let st0 := placeUnambiguous ctx (boxes.enum.map fun p => (p.1 + 1, p.2))
    ⟨[], [], zeroBox, zeroBox, []⟩
  let st :=
    if 0 < st0.commons.length then
      let m : Nat := (3 * nentries + 9) / 10
      let scored := st0.commons.map fun off =>
        CommonEntry.mk off (f8Abs
          ((box_penalty st0.leftBox (boxes.getD (off - 1) default)).sub
           (box_penalty st0.rightBox (boxes.getD (off - 1) default))))
      distributeCommons boxes m (scored.mergeSort leCommon) st0
    else st0
  { spl_left := st.spl_left, spl_right := st.spl_right,
    spl_ldatum := some st.leftBox, spl_rdatum := some st.rightBox }

/-- `gist_tbox_picksplit` of `tnumber_gist.c`: the double-sorting split
method.  The entry at position `i` of `boxes` is the C entry at offset
`i + 1`; the returned `GIST_SPLITVEC` carries the offset partitions and the
two union boxes.  If the axis scans accepted no candidate split, the trivial
fallback split is used. -/
def gist_tbox_picksplit (boxes : List TBOX) : GIST_SPLITVEC :=
  if (pickSplitContext boxes).first then tbox_fallbackSplit boxes
  else doubleSortingSplit boxes

/-! ### Spec-side predicates used in theorem statements -/

/-- The degeneracy test of `size_tbox`: some axis has (NaN-aware) max ≤ min. -/
def degenerateBox (b : TBOX) : Bool :=
  FLOAT8_LE b.xmax b.xmin || FLOAT8_LE b.tmax b.tmin

/-- A float8 value is finite (neither NaN nor an infinity). -/
def isFiniteF8 : F8 → Bool
  | .fin _ => true
  | _ => false

/-- All four bounds of the box are finite floats. -/
def finiteBox (b : TBOX) : Bool :=
  isFiniteF8 b.xmin && isFiniteF8 b.xmax && isFiniteF8 b.tmin && isFiniteF8 b.tmax

/-- No bound of the box is NaN. -/
def nanFreeBox (b : TBOX) : Bool :=
  !(b.xmin == .nan) && !(b.xmax == .nan) && !(b.tmin == .nan) && !(b.tmax == .nan)

/-- The box satisfies the nominal invariant of the data model under the
NaN-aware order: `xmin ≤ xmax` and `tmin ≤ tmax`. -/
def validBox (b : TBOX) : Bool :=
  FLOAT8_LE b.xmin b.xmax && FLOAT8_LE b.tmin b.tmax

/-- `ceil(LIMIT_RATIO * n)` for a natural entry count `n`: the minimum
number of entries each side of an accepted split must receive. -/
def splitQuota (n : Nat) : Nat := (3 * n + 9) / 10

/-- The interval fits the left group of the selected split: its upper bound
is at most the context's `leftUpper` (the test of the first assignment loop
of `gist_tbox_picksplit`). -/
def fitsLeftB (ctx : ConsiderSplitContext) (iv : SplitInterval) : Bool :=
  FLOAT8_LE iv.upper ctx.leftUpper

/-- The interval fits the right group of the selected split: its lower bound
is at least the context's `rightLower`. -/
def fitsRightB (ctx : ConsiderSplitContext) (iv : SplitInterval) : Bool :=
  FLOAT8_GE iv.lower ctx.rightLower

/-- Key invariant of the candidate scans: once a split has been selected
(`first = false`), at least `splitQuota n` of the entries (projected on the
selected axis) fit the left group, and at least `splitQuota n` fit the right
group.  `g_tbox_consider_split` only accepts candidates with ratio above
`LIMIT_RATIO`, which forces this. -/
def ctxGood (boxes : List TBOX) (ctx : ConsiderSplitContext) : Prop :=
  ctx.first = false →
    splitQuota boxes.length
        ≤ (boxes.map (projInterval ctx.dim)).countP (fitsLeftB ctx) ∧
    splitQuota boxes.length
        ≤ (boxes.map (projInterval ctx.dim)).countP (fitsRightB ctx)

/-- The list is sorted by the `interval_cmp_lower` comparator. -/
def lowerSorted (l : List SplitInterval) : Prop :=
  List.Pairwise (fun a b => leLower a b = true) l

/-- The list is sorted by the `interval_cmp_upper` comparator. -/
def upperSorted (l : List SplitInterval) : Prop :=
  List.Pairwise (fun a b => leUpper a b = true) l

/-! ### Order lemmas for the NaN-aware comparison -/

theorem f8cmp_self (a : F8) : float8_cmp_internal a a = 0 := by
  cases a <;> simp [float8_cmp_internal]

theorem f8cmp_eq_zero_iff {a b : F8} : float8_cmp_internal a b = 0 ↔ a = b := by
  cases a <;> cases b <;> simp [float8_cmp_internal]
  case fin.fin p q =>
    rcases lt_trichotomy p q with h | h | h
    · simp [h, ne_of_lt h]
    · simp [h]
    · simp [not_lt_of_gt h, ne_of_gt h]

theorem f8cmp_swap (a b : F8) : float8_cmp_internal b a = -float8_cmp_internal a b := by
  cases a <;> cases b <;> simp [float8_cmp_internal]
  case fin.fin p q =>
    rcases lt_trichotomy p q with h | h | h
    · simp [h, not_lt_of_gt h, ne_of_gt h]
    · simp [h]
    · simp [h, not_lt_of_gt h, ne_of_gt h]

theorem f8cmp_le_trans {a b c : F8} (h1 : float8_cmp_internal a b ≤ 0)
    (h2 : float8_cmp_internal b c ≤ 0) : float8_cmp_internal a c ≤ 0 := by
  cases a <;> cases b <;> cases c <;> simp_all [float8_cmp_internal]
  all_goals split_ifs at * <;> simp_all
  all_goals linarith

theorem f8cmp_lt_of_le_of_lt {a b c : F8} (h1 : float8_cmp_internal a b ≤ 0)
    (h2 : float8_cmp_internal b c < 0) : float8_cmp_internal a c < 0 := by
  by_contra h
  push_neg at h
  have hca : float8_cmp_internal c a ≤ 0 := by rw [f8cmp_swap]; omega
  have hcb : float8_cmp_internal c b ≤ 0 := f8cmp_le_trans hca h1
  rw [f8cmp_swap] at hcb
  omega

theorem f8cmp_lt_of_lt_of_le {a b c : F8} (h1 : float8_cmp_internal a b < 0)
    (h2 : float8_cmp_internal b c ≤ 0) : float8_cmp_internal a c < 0 := by
  by_contra h
  push_neg at h
  have hca : float8_cmp_internal c a ≤ 0 := by rw [f8cmp_swap]; omega
  have hba : float8_cmp_internal b a ≤ 0 := f8cmp_le_trans h2 hca
  rw [f8cmp_swap] at hba
  omega

theorem f8cmp_nan_left {b : F8} (hb : b ≠ .nan) : float8_cmp_internal .nan b = 1 := by
  cases b <;> simp_all [float8_cmp_internal]

theorem f8cmp_nan_right {a : F8} (ha : a ≠ .nan) : float8_cmp_internal a .nan = -1 := by
  cases a <;> simp_all [float8_cmp_internal]

theorem FLOAT8_LE_iff {a b : F8} : FLOAT8_LE a b = true ↔ float8_cmp_internal a b ≤ 0 := by
  simp [FLOAT8_LE]

theorem FLOAT8_LT_iff {a b : F8} : FLOAT8_LT a b = true ↔ float8_cmp_internal a b < 0 := by
  simp [FLOAT8_LT]

theorem FLOAT8_GE_iff {a b : F8} : FLOAT8_GE a b = true ↔ 0 ≤ float8_cmp_internal a b := by
  simp [FLOAT8_GE]

theorem FLOAT8_GT_iff {a b : F8} : FLOAT8_GT a b = true ↔ 0 < float8_cmp_internal a b := by
  simp [FLOAT8_GT]

theorem FLOAT8_EQ_iff {a b : F8} : FLOAT8_EQ a b = true ↔ a = b := by
  simp [FLOAT8_EQ, f8cmp_eq_zero_iff]

theorem le_FLOAT8_MAX_left (a b : F8) : float8_cmp_internal a (FLOAT8_MAX a b) ≤ 0 := by
  unfold FLOAT8_MAX
  split
  · simp [f8cmp_self]
  · next h => simp [FLOAT8_GT] at h; omega

theorem le_FLOAT8_MAX_right (a b : F8) : float8_cmp_internal b (FLOAT8_MAX a b) ≤ 0 := by
  unfold FLOAT8_MAX
  split
  · next h => simp [FLOAT8_GT] at h; rw [f8cmp_swap]; omega
  · simp [f8cmp_self]

theorem FLOAT8_MIN_le_left (a b : F8) : float8_cmp_internal (FLOAT8_MIN a b) a ≤ 0 := by
  unfold FLOAT8_MIN
  split
  · simp [f8cmp_self]
  · next h => simp [FLOAT8_LT] at h; rw [f8cmp_swap]; omega

theorem FLOAT8_MIN_le_right (a b : F8) : float8_cmp_internal (FLOAT8_MIN a b) b ≤ 0 := by
  unfold FLOAT8_MIN
  split
  · next h => simp [FLOAT8_LT] at h; omega
  · simp [f8cmp_self]

theorem FLOAT8_MAX_eq_or (a b : F8) : FLOAT8_MAX a b = a ∨ FLOAT8_MAX a b = b := by
  unfold FLOAT8_MAX; split <;> simp

theorem FLOAT8_MIN_eq_or (a b : F8) : FLOAT8_MIN a b = a ∨ FLOAT8_MIN a b = b := by
  unfold FLOAT8_MIN; split <;> simp

theorem FLOAT8_MAX_ne_nan {a b : F8} (ha : a ≠ .nan) (hb : b ≠ .nan) :
    FLOAT8_MAX a b ≠ .nan := by
  rcases FLOAT8_MAX_eq_or a b with h | h <;> rw [h] <;> assumption

theorem FLOAT8_MIN_ne_nan {a b : F8} (ha : a ≠ .nan) (hb : b ≠ .nan) :
    FLOAT8_MIN a b ≠ .nan := by
  rcases FLOAT8_MIN_eq_or a b with h | h <;> rw [h] <;> assumption

theorem isFiniteF8_iff {x : F8} : isFiniteF8 x = true ↔ ∃ q, x = .fin q := by
  cases x <;> simp [isFiniteF8]

theorem FLOAT8_MAX_nan_right {a : F8} (ha : a ≠ .nan) : FLOAT8_MAX a .nan = .nan := by
  unfold FLOAT8_MAX
  rw [if_neg]
  simp [FLOAT8_GT, f8cmp_nan_right ha]

theorem FLOAT8_MIN_ne_nan_left {a : F8} (ha : a ≠ .nan) (b : F8) :
    FLOAT8_MIN a b ≠ .nan := by
  by_cases hb : b = .nan
  · subst hb
    unfold FLOAT8_MIN
    rw [if_pos]
    · exact ha
    · simp [FLOAT8_LT, f8cmp_nan_right ha]
  · exact FLOAT8_MIN_ne_nan ha hb

theorem nativeLE_eq_FLOAT8_LE {a b : F8} (ha : a ≠ .nan) (hb : b ≠ .nan) :
    nativeLE a b = FLOAT8_LE a b := by
  cases a <;> cases b <;> simp_all [nativeLE, FLOAT8_LE, float8_cmp_internal]
  case fin.fin p q =>
    rcases lt_trichotomy p q with h | h | h
    · simp [le_of_lt h, h]
    · simp [h]
    · simp [not_le_of_gt h, not_lt_of_gt h, ne_of_gt h]

theorem FLOAT8_GE_eq_swap (a b : F8) : FLOAT8_GE a b = FLOAT8_LE b a := by
  simp only [FLOAT8_GE, FLOAT8_LE, f8cmp_swap a b]
  exact decide_eq_decide.mpr (by omega)

theorem nativeGE_eq_FLOAT8_GE {a b : F8} (ha : a ≠ .nan) (hb : b ≠ .nan) :
    nativeGE a b = FLOAT8_GE a b := by
  rw [nativeGE, nativeLE_eq_FLOAT8_LE hb ha, FLOAT8_GE_eq_swap]

/-! ### Claims C1, C5, C6, C9, C10 -/

/-- **C1** (predicate soundness: for every key, query and strategy, the
internal evaluation returns true whenever the leaf evaluation does).  The
code violates this property, so the claim is recorded as a code bug; this
theorem evaluates both tables at the failing input.  For the valid boxes
key = [5,5]×[0,1] and query = [5,10]×[0,1] under strategy Left, the leaf
test `key->xmax <= query->xmin` accepts (the test was deliberately
generalized from `<` to `<=`, see the comment above
`index_leaf_consistent_tbox`), but the internal test
`!overright(key, query)` rejects because `key.xmin = query.xmin`.  A
one-entry subtree has this same box as its summary, so the internal table
rejects a subtree whose single leaf the leaf table accepts, contradicting
the contract stated above `gist_internal_consistent_tbox` ("should return
false [only if] for all data items x below entry, the predicate x op query
must be false"). -/
theorem internal_rejects_leaf_accepted_left :
    index_leaf_consistent_tbox ⟨.fin 5, .fin 5, .fin 0, .fin 1⟩
        ⟨.fin 5, .fin 10, .fin 0, .fin 1⟩ .RTLeft = true ∧
    gist_internal_consistent_tbox ⟨.fin 5, .fin 5, .fin 0, .fin 1⟩
        ⟨.fin 5, .fin 10, .fin 0, .fin 1⟩ .RTLeft = false ∧
    validBox ⟨.fin 5, .fin 5, .fin 0, .fin 1⟩ = true ∧
    validBox ⟨.fin 5, .fin 10, .fin 0, .fin 1⟩ = true := by
  decide

/-- **C5**: for every key and query box, the internal evaluation of each
directional strategy equals the negation of its logical opposite evaluated
on the summary box, Overlap and ContainedBy both evaluate box overlap, and
Contains and Same both evaluate containment of the query by the key. -/
theorem internal_table_is_negated_opposites (key query : TBOX) :
    gist_internal_consistent_tbox key query .RTLeft
        = !overright_tbox_tbox_internal key query ∧
    gist_internal_consistent_tbox key query .RTOverLeft
        = !right_tbox_tbox_internal key query ∧
    gist_internal_consistent_tbox key query .RTRight
        = !overleft_tbox_tbox_internal key query ∧
    gist_internal_consistent_tbox key query .RTOverRight
        = !left_tbox_tbox_internal key query ∧
    gist_internal_consistent_tbox key query .RTBefore
        = !overafter_tbox_tbox_internal key query ∧
    gist_internal_consistent_tbox key query .RTOverBefore
        = !after_tbox_tbox_internal key query ∧
    gist_internal_consistent_tbox key query .RTAfter
        = !overbefore_tbox_tbox_internal key query ∧
    gist_internal_consistent_tbox key query .RTOverAfter
        = !before_tbox_tbox_internal key query ∧
    gist_internal_consistent_tbox key query .RTOverlap
        = overlaps_tbox_tbox_internal key query ∧
    gist_internal_consistent_tbox key query .RTContainedBy
        = overlaps_tbox_tbox_internal key query ∧
    gist_internal_consistent_tbox key query .RTContains
        = contains_tbox_tbox_internal key query ∧
    gist_internal_consistent_tbox key query .RTSame
        = contains_tbox_tbox_internal key query :=
  ⟨rfl, rfl, rfl, rfl, rfl, rfl, rfl, rfl, rfl, rfl, rfl, rfl⟩

/-- **C6** fails as stated: the four directional leaf tests are performed
with *native* C floating-point comparisons, not with the NaN-aware
three-way compare.  In particular a key with `xmin = NaN` does *not*
satisfy the Right strategy at a leaf (the claim asserts it satisfies it
against every query). -/
theorem leaf_right_nan_key_rejected :
    index_leaf_consistent_tbox ⟨.nan, .nan, .fin 0, .fin 1⟩
      ⟨.fin 0, .fin 1, .fin 0, .fin 1⟩ .RTRight = false := by
  decide

/-- **C6** (amended): the Left/Right/Before/After leaf tests compare raw
bounds with native floating-point comparisons (`key->xmax <= query->xmin`
etc.); whenever the two compared bounds are not NaN these native tests
coincide with the NaN-aware tests, so on NaN-free bounds the leaf tests are
Left ⇔ key.xmax ≤ query.xmin, Right ⇔ key.xmin ≥ query.xmax,
Before ⇔ key.tmax ≤ query.tmin, After ⇔ key.tmin ≥ query.tmax under the
NaN-aware order. -/
theorem leaf_directional_tests_native (key query : TBOX) :
    index_leaf_consistent_tbox key query .RTLeft = nativeLE key.xmax query.xmin ∧
    index_leaf_consistent_tbox key query .RTRight = nativeGE key.xmin query.xmax ∧
    index_leaf_consistent_tbox key query .RTBefore = nativeLE key.tmax query.tmin ∧
    index_leaf_consistent_tbox key query .RTAfter = nativeGE key.tmin query.tmax ∧
    (key.xmax ≠ .nan → query.xmin ≠ .nan →
      index_leaf_consistent_tbox key query .RTLeft = FLOAT8_LE key.xmax query.xmin) ∧
    (key.xmin ≠ .nan → query.xmax ≠ .nan →
      index_leaf_consistent_tbox key query .RTRight = FLOAT8_GE key.xmin query.xmax) ∧
    (key.tmax ≠ .nan → query.tmin ≠ .nan →
      index_leaf_consistent_tbox key query .RTBefore = FLOAT8_LE key.tmax query.tmin) ∧
    (key.tmin ≠ .nan → query.tmax ≠ .nan →
      index_leaf_consistent_tbox key query .RTAfter = FLOAT8_GE key.tmin query.tmax) :=
  ⟨rfl, rfl, rfl, rfl,
   fun h1 h2 => nativeLE_eq_FLOAT8_LE h1 h2,
   fun h1 h2 => nativeGE_eq_FLOAT8_GE h1 h2,
   fun h1 h2 => nativeLE_eq_FLOAT8_LE h1 h2,
   fun h1 h2 => nativeGE_eq_FLOAT8_GE h1 h2⟩

/-- Witness for the amended C6 theorem at concrete NaN-free boxes. -/
theorem leaf_directional_tests_native_witness :
    index_leaf_consistent_tbox ⟨.fin 0, .fin 5, .fin 0, .fin 1⟩
      ⟨.fin 5, .fin 10, .fin 0, .fin 1⟩ .RTLeft
      = FLOAT8_LE (F8.fin 5) (F8.fin 5) :=
  (leaf_directional_tests_native ⟨.fin 0, .fin 5, .fin 0, .fin 1⟩
    ⟨.fin 5, .fin 10, .fin 0, .fin 1⟩).2.2.2.2.1 (by decide) (by decide)

/-- **C9**: compress is idempotent.  An entry that is already a box
(`leafkey = false`: every internal entry, and every entry `compress` itself
produced) is returned unchanged, and consequently
`compress (compress x) = compress x` for every entry `x`. -/
theorem compress_idempotent :
    ∀ (δ : Type) (temporal_bbox : δ → TBOX) (boxDatum : TBOX → δ)
      (e : GISTENTRY δ),
      (e.leafkey = false → gist_tnumber_compress temporal_bbox boxDatum e = e) ∧
      gist_tnumber_compress temporal_bbox boxDatum
          (gist_tnumber_compress temporal_bbox boxDatum e)
        = gist_tnumber_compress temporal_bbox boxDatum e := by
  intro δ tb bd e
  constructor
  · intro h
    simp [gist_tnumber_compress, h]
  · by_cases h : e.leafkey <;> simp [gist_tnumber_compress, h]

/-- Witness for C9 at a concrete already-boxed entry. -/
theorem compress_idempotent_witness :
    gist_tnumber_compress (fun _ : Unit => zeroBox) (fun _ => ())
      ⟨(), false⟩ = ⟨(), false⟩ :=
  (compress_idempotent Unit (fun _ => zeroBox) (fun _ => ()) ⟨(), false⟩).1 rfl

/-- **C10**: `gist_tnumber_consistent` reports `recheck = true` on every
normally-returning invocation — leaf or internal, every strategy, every
query subtype, including the early paths answering false on a NULL key or
NULL query value (`*recheck = true` is executed before anything else). -/
theorem consistent_always_rechecks :
    ∀ (ρ τ : Type) (i2t f2t : ρ → TBOX) (t2t : τ → TBOX) (key : Option TBOX)
      (query : ConsistentQuery ρ τ) (strategy : StrategyNumber) (leaf : Bool)
      (res rech : Bool),
      gist_tnumber_consistent i2t f2t t2t key query strategy leaf
        = .ok (res, rech) → rech = true := by
  intro ρ τ i2t f2t t2t key query strategy leaf res rech h
  cases key with
  | none =>
    simp [gist_tnumber_consistent] at h
    simp [h.2]
  | some k =>
    cases query with
    | intrange r =>
      cases r <;> simp [gist_tnumber_consistent] at h <;> simp_all
    | floatrange r =>
      cases r <;> simp [gist_tnumber_consistent] at h <;> simp_all
    | tbox b =>
      cases b <;> simp [gist_tnumber_consistent] at h <;> simp_all
    | temporal t =>
      cases t <;> simp [gist_tnumber_consistent] at h <;> simp_all
    | unknownSubtype => simp [gist_tnumber_consistent] at h

/-- Witness for C10 at a concrete invocation (leaf evaluation of Overlap on
a TBOX query). -/
theorem consistent_always_rechecks_witness : (true : Bool) = true :=
  consistent_always_rechecks Unit Unit (fun _ => zeroBox) (fun _ => zeroBox)
    (fun _ => zeroBox) (some zeroBox) (.tbox (some zeroBox)) .RTOverlap true
    true true rfl

/-! ### Claim C4 -/

/-- **C4** fails as stated: the degeneracy check of `size_tbox` precedes the
NaN check, so a box with `xmax = NaN` but a degenerate time axis has size 0,
not +infinity, and its penalty against a finite box is 0, not +infinity. -/
theorem size_nan_xmax_not_infinite :
    size_tbox ⟨.fin 0, .nan, .fin 5, .fin 5⟩ = .fin 0 ∧
    size_tbox ⟨.fin 0, .nan, .fin 5, .fin 5⟩ ≠ .pinf ∧
    finiteBox ⟨.fin 0, .fin 1, .fin 5, .fin 5⟩ = true ∧
    box_penalty ⟨.fin 0, .fin 1, .fin 5, .fin 5⟩ ⟨.fin 0, .nan, .fin 5, .fin 5⟩
      = .fin 0 ∧
    box_penalty ⟨.fin 0, .fin 1, .fin 5, .fin 5⟩ ⟨.fin 0, .nan, .fin 5, .fin 5⟩
      ≠ .pinf := by
  refine ⟨?_, ?_, ?_, ?_, ?_⟩ <;>
    norm_num [size_tbox, box_penalty, rt_tbox_union, finiteBox, isFiniteF8,
      FLOAT8_LE, FLOAT8_MAX, FLOAT8_MIN, FLOAT8_GT, FLOAT8_LT,
      float8_cmp_internal, F8.sub, F8.mul]
  all_goals simp

/-- **C4** (amended): `size_tbox` returns 0 when either axis has max ≤ min
under the NaN-aware comparison; *otherwise* it returns +infinity when
`xmax` is NaN, and the product `(xmax−xmin)·(tmax−tmin)` when it is not.
Consequently a *non-degenerate* box with `xmax = NaN` has size +infinity,
and a box with `xmax = NaN` has penalty +infinity against any finite
non-degenerate box. -/
theorem size_tbox_nan_spec :
    (∀ b : TBOX,
      (degenerateBox b = true → size_tbox b = .fin 0) ∧
      (degenerateBox b = false → b.xmax = .nan → size_tbox b = .pinf) ∧
      (degenerateBox b = false → b.xmax ≠ .nan →
        size_tbox b = (b.xmax.sub b.xmin).mul (b.tmax.sub b.tmin))) ∧
    (∀ original new : TBOX, finiteBox original = true →
      degenerateBox original = false → new.xmax = .nan →
      box_penalty original new = .pinf) := by
  constructor
  · intro b
    refine ⟨?_, ?_, ?_⟩
    · intro h
      unfold size_tbox
      rw [show (FLOAT8_LE b.xmax b.xmin || FLOAT8_LE b.tmax b.tmin)
            = degenerateBox b from rfl, h]
      simp
    · intro h hn
      unfold size_tbox
      rw [show (FLOAT8_LE b.xmax b.xmin || FLOAT8_LE b.tmax b.tmin)
            = degenerateBox b from rfl, h]
      simp [hn]
    · intro h hn
      unfold size_tbox
      rw [show (FLOAT8_LE b.xmax b.xmin || FLOAT8_LE b.tmax b.tmin)
            = degenerateBox b from rfl, h]
      simp [hn]
  · intro o n hfin hdeg hnan
    have hx : FLOAT8_LE o.xmax o.xmin = false ∧ FLOAT8_LE o.tmax o.tmin = false := by
      simpa [degenerateBox] using hdeg
    have hf : isFiniteF8 o.xmin = true ∧ isFiniteF8 o.xmax = true ∧
        isFiniteF8 o.tmin = true ∧ isFiniteF8 o.tmax = true := by
      simpa [finiteBox, and_assoc] using hfin
    obtain ⟨qxmin, hq1⟩ := isFiniteF8_iff.mp hf.1
    obtain ⟨qxmax, hq2⟩ := isFiniteF8_iff.mp hf.2.1
    obtain ⟨qtmin, hq3⟩ := isFiniteF8_iff.mp hf.2.2.1
    obtain ⟨qtmax, hq4⟩ := isFiniteF8_iff.mp hf.2.2.2
    have hxmax_ne : o.xmax ≠ .nan := by rw [hq2]; simp
    have hxmin_ne : o.xmin ≠ .nan := by rw [hq1]; simp
    -- the union box has xmax = NaN, xmin ≠ NaN, and a non-degenerate t-axis
    have hu_xmax : (rt_tbox_union o n).xmax = .nan := by
      simp only [rt_tbox_union]
      rw [hnan, FLOAT8_MAX_nan_right hxmax_ne]
    have hu_xmin : (rt_tbox_union o n).xmin ≠ .nan := by
      simp only [rt_tbox_union]
      exact FLOAT8_MIN_ne_nan_left hxmin_ne n.xmin
    have ht_strict : float8_cmp_internal o.tmin o.tmax < 0 := by
      have h2 := hx.2
      simp [FLOAT8_LE] at h2
      rw [f8cmp_swap]
      omega
    have hu_t : float8_cmp_internal (rt_tbox_union o n).tmin
        (rt_tbox_union o n).tmax < 0 := by
      simp only [rt_tbox_union]
      exact f8cmp_lt_of_le_of_lt (FLOAT8_MIN_le_left o.tmin n.tmin)
        (f8cmp_lt_of_lt_of_le ht_strict (le_FLOAT8_MAX_left o.tmax n.tmax))
    have hle1 : FLOAT8_LE (rt_tbox_union o n).xmax (rt_tbox_union o n).xmin
        = false := by
      rw [hu_xmax]
      simp [FLOAT8_LE, f8cmp_nan_left hu_xmin]
    have hle2 : FLOAT8_LE (rt_tbox_union o n).tmax (rt_tbox_union o n).tmin
        = false := by
      simp only [FLOAT8_LE]
      rw [f8cmp_swap]
      simp only [decide_eq_false_iff_not]
      omega
    have hsize_u : size_tbox (rt_tbox_union o n) = .pinf := by
      unfold size_tbox
      rw [hle1, hle2]
      simp [hu_xmax]
    have hsize_o : size_tbox o = .fin ((qxmax - qxmin) * (qtmax - qtmin)) := by
      unfold size_tbox
      rw [hx.1, hx.2, hq1, hq2, hq3, hq4]
      rfl
    unfold box_penalty
    rw [hsize_u, hsize_o]
    rfl

/-! ### Shape lemmas for sizes, toward Claim C7 -/

theorem f8cmp_fin_le {p q : ℚ} :
    float8_cmp_internal (.fin p) (.fin q) ≤ 0 ↔ p ≤ q := by
  simp only [float8_cmp_internal]
  split_ifs with h1 h2
  · simp [le_of_lt h1]
  · simp [le_of_eq h2]
  · constructor
    · omega
    · intro h
      rcases lt_or_eq_of_le h with h' | h' <;> simp_all

theorem f8cmp_fin_lt {p q : ℚ} :
    float8_cmp_internal (.fin p) (.fin q) < 0 ↔ p < q := by
  simp only [float8_cmp_internal]
  split_ifs with h1 h2 <;> simp_all

theorem f8cmp_nan_ge (y : F8) : 0 ≤ float8_cmp_internal .nan y := by
  cases y <;> simp [float8_cmp_internal]

theorem f8cmp_le_nan (x : F8) : float8_cmp_internal x .nan ≤ 0 := by
  cases x <;> simp [float8_cmp_internal]

theorem ne_nan_of_cmp_neg {x y : F8} (h : float8_cmp_internal x y < 0) :
    x ≠ .nan := by
  intro hx
  subst hx
  have := f8cmp_nan_ge y
  omega

theorem ne_nan_of_cmp_pos {x y : F8} (h : 0 < float8_cmp_internal x y) :
    y ≠ .nan := by
  intro hy
  subst hy
  have := f8cmp_le_nan x
  omega

theorem f8cmp_pinf_le {x : F8} (hx : x ≠ .nan) :
    0 ≤ float8_cmp_internal .pinf x := by
  cases x <;> simp_all [float8_cmp_internal]

/-- If `y` compares strictly below a non-NaN `x`, their difference is
+infinity or a positive finite value. -/
theorem sub_pos_shape {x y : F8} (hx : x ≠ .nan)
    (h : float8_cmp_internal y x < 0) :
    x.sub y = .pinf ∨ ∃ q, 0 < q ∧ x.sub y = .fin q := by
  have hy : y ≠ .nan := ne_nan_of_cmp_neg h
  cases x with
  | nan => exact absurd rfl hx
  | pinf =>
    cases y with
    | nan => exact absurd rfl hy
    | pinf => simp [float8_cmp_internal] at h
    | ninf => exact Or.inl rfl
    | fin q => exact Or.inl rfl
  | ninf => cases y <;> simp_all [float8_cmp_internal]
  | fin p =>
    cases y with
    | nan => exact absurd rfl hy
    | pinf => simp [float8_cmp_internal] at h
    | ninf => exact Or.inl rfl
    | fin q =>
      refine Or.inr ⟨p - q, ?_, rfl⟩
      simp only [float8_cmp_internal] at h
      split_ifs at h with h1 h2
      · linarith
      · omega
      · omega

/-- The product of two values that are each +infinity or positive finite is
+infinity or positive finite. -/
theorem mul_pos_shape {x y : F8}
    (hx : x = .pinf ∨ ∃ q, 0 < q ∧ x = .fin q)
    (hy : y = .pinf ∨ ∃ q, 0 < q ∧ y = .fin q) :
    x.mul y = .pinf ∨ ∃ q, 0 < q ∧ x.mul y = .fin q := by
  rcases hx with rfl | ⟨p, hp, rfl⟩ <;> rcases hy with rfl | ⟨q, hq, rfl⟩
  · simp [F8.mul]
  · simp [F8.mul, ne_of_gt hq, hq]
  · simp [F8.mul, ne_of_gt hp, hp]
  · exact Or.inr ⟨p * q, mul_pos hp hq, rfl⟩

/-- A difference is finite only when both operands are finite. -/
theorem sub_eq_fin {x y : F8} {d : ℚ} (h : x.sub y = .fin d) :
    ∃ p q, x = .fin p ∧ y = .fin q ∧ d = p - q := by
  cases x <;> cases y <;> simp only [F8.sub] at h
  case fin.fin p q =>
    exact ⟨p, q, rfl, rfl, by injection h with h1; exact h1.symm⟩
  all_goals exact absurd h (by simp)

/-- A product is finite only when both factors are finite. -/
theorem mul_eq_fin {x y : F8} {d : ℚ} (h : x.mul y = .fin d) :
    ∃ p q, x = .fin p ∧ y = .fin q ∧ d = p * q := by
  cases x <;> cases y <;> simp only [F8.mul] at h
  case fin.fin p q =>
    exact ⟨p, q, rfl, rfl, by injection h with h1; exact h1.symm⟩
  all_goals (try split_ifs at h) <;> exact absurd h (by simp)

theorem mul_nan_right (x : F8) : x.mul .nan = .nan := by
  cases x <;> simp [F8.mul]

theorem FLOAT8_LE_eq_false {a b : F8} :
    FLOAT8_LE a b = false ↔ 0 < float8_cmp_internal a b := by
  simp only [FLOAT8_LE, decide_eq_false_iff_not]
  omega

theorem ne_nan_of_le_ne_nan {x y : F8} (h : float8_cmp_internal x y ≤ 0)
    (hy : y ≠ .nan) : x ≠ .nan := by
  intro hx
  subst hx
  rw [f8cmp_nan_left hy] at h
  omega

theorem f8cmp_ninf_le (z : F8) : float8_cmp_internal .ninf z ≤ 0 := by
  cases z <;> simp [float8_cmp_internal]

theorem f8cmp_le_pinf {x : F8} (hx : x ≠ .nan) :
    float8_cmp_internal x .pinf ≤ 0 := by
  cases x <;> simp_all [float8_cmp_internal]

theorem le_fin_shape {x : F8} {r : ℚ} (h : float8_cmp_internal x (.fin r) ≤ 0) :
    x = .ninf ∨ ∃ s, s ≤ r ∧ x = .fin s := by
  cases x with
  | nan => rw [f8cmp_nan_left (by simp)] at h; omega
  | pinf => simp [float8_cmp_internal] at h
  | ninf => exact Or.inl rfl
  | fin s => exact Or.inr ⟨s, f8cmp_fin_le.mp h, rfl⟩

theorem fin_le_shape {x : F8} {r : ℚ} (h : float8_cmp_internal (.fin r) x ≤ 0) :
    x = .pinf ∨ x = .nan ∨ ∃ s, r ≤ s ∧ x = .fin s := by
  cases x with
  | nan => exact Or.inr (Or.inl rfl)
  | pinf => exact Or.inl rfl
  | ninf => simp [float8_cmp_internal] at h
  | fin s =>
    refine Or.inr (Or.inr ⟨s, ?_, rfl⟩)
    exact f8cmp_fin_le.mp h

theorem size_tbox_degenerate {b : TBOX}
    (h : (FLOAT8_LE b.xmax b.xmin || FLOAT8_LE b.tmax b.tmin) = true) :
    size_tbox b = .fin 0 := by
  unfold size_tbox
  rw [h]
  simp

theorem size_tbox_pinf {b : TBOX} (h1 : FLOAT8_LE b.xmax b.xmin = false)
    (h2 : FLOAT8_LE b.tmax b.tmin = false) (h3 : b.xmax = .nan) :
    size_tbox b = .pinf := by
  unfold size_tbox
  rw [h1, h2]
  simp [h3]

theorem size_tbox_product {b : TBOX} (h1 : FLOAT8_LE b.xmax b.xmin = false)
    (h2 : FLOAT8_LE b.tmax b.tmin = false) (h3 : b.xmax ≠ .nan) :
    size_tbox b = (b.xmax.sub b.xmin).mul (b.tmax.sub b.tmin) := by
  unfold size_tbox
  rw [h1, h2]
  simp [h3]

/-- Monotonicity core: if box `c` is contained in box `u` bound-wise under
the NaN-aware order, then `size_tbox u` is NaN, +infinity, or both sizes are
finite with `size_tbox c ≤ size_tbox u`. -/
theorem size_mono_of_contained {u c : TBOX}
    (hx1 : float8_cmp_internal u.xmin c.xmin ≤ 0)
    (hx2 : float8_cmp_internal c.xmax u.xmax ≤ 0)
    (ht1 : float8_cmp_internal u.tmin c.tmin ≤ 0)
    (ht2 : float8_cmp_internal c.tmax u.tmax ≤ 0) :
    size_tbox u = .nan ∨ size_tbox u = .pinf ∨
    ∃ qu qc, 0 ≤ qc ∧ qc ≤ qu ∧ size_tbox u = .fin qu ∧ size_tbox c = .fin qc := by
  by_cases hdu : (FLOAT8_LE u.xmax u.xmin || FLOAT8_LE u.tmax u.tmin) = true
  · -- u degenerate, hence c degenerate: both sizes are 0
    have hdc : (FLOAT8_LE c.xmax c.xmin || FLOAT8_LE c.tmax c.tmin) = true := by
      have hdu2 : FLOAT8_LE u.xmax u.xmin = true ∨ FLOAT8_LE u.tmax u.tmin = true := by
        simpa using hdu
      rcases hdu2 with h | h
      · have hcc : FLOAT8_LE c.xmax c.xmin = true := by
          rw [FLOAT8_LE_iff] at h ⊢
          exact f8cmp_le_trans hx2 (f8cmp_le_trans h hx1)
        simp [hcc]
      · have hcc : FLOAT8_LE c.tmax c.tmin = true := by
          rw [FLOAT8_LE_iff] at h ⊢
          exact f8cmp_le_trans ht2 (f8cmp_le_trans h ht1)
        simp [hcc]
    exact Or.inr (Or.inr ⟨0, 0, le_refl 0, le_refl 0,
      size_tbox_degenerate hdu, size_tbox_degenerate hdc⟩)
  · rw [Bool.or_eq_true, not_or] at hdu
    have hA : FLOAT8_LE u.xmax u.xmin = false := by
      simpa using hdu.1
    have hB : FLOAT8_LE u.tmax u.tmin = false := by
      simpa using hdu.2
    have hxud : 0 < float8_cmp_internal u.xmax u.xmin := FLOAT8_LE_eq_false.mp hA
    have htud : 0 < float8_cmp_internal u.tmax u.tmin := FLOAT8_LE_eq_false.mp hB
    by_cases hxnan : u.xmax = .nan
    · exact Or.inr (Or.inl (size_tbox_pinf hA hB hxnan))
    · by_cases htnan : u.tmax = .nan
      · -- NaN time maximum: the product degenerates to NaN
        refine Or.inl ?_
        rw [size_tbox_product hA hB hxnan, htnan]
        have h0 : (F8.nan).sub u.tmin = .nan := by simp [F8.sub]
        rw [h0, mul_nan_right]
      · have hxshape := sub_pos_shape hxnan
          (show float8_cmp_internal u.xmin u.xmax < 0 by rw [f8cmp_swap]; omega)
        have htshape := sub_pos_shape htnan
          (show float8_cmp_internal u.tmin u.tmax < 0 by rw [f8cmp_swap]; omega)
        rcases mul_pos_shape hxshape htshape with hp | ⟨qu, hqu, hp⟩
        · exact Or.inr (Or.inl (by rw [size_tbox_product hA hB hxnan]; exact hp))
        · obtain ⟨dx, dt, hdx, hdt, hd⟩ := mul_eq_fin hp
          obtain ⟨pux, pun, hux, hun, hdx'⟩ := sub_eq_fin hdx
          obtain ⟨put, putn, hut, hutn, hdt'⟩ := sub_eq_fin hdt
          have hsu : size_tbox u = .fin qu := by
            rw [size_tbox_product hA hB hxnan]; exact hp
          by_cases hdc : (FLOAT8_LE c.xmax c.xmin || FLOAT8_LE c.tmax c.tmin) = true
          · exact Or.inr (Or.inr ⟨qu, 0, le_refl 0, le_of_lt hqu, hsu,
              size_tbox_degenerate hdc⟩)
          · rw [Bool.or_eq_true, not_or] at hdc
            have hC : FLOAT8_LE c.xmax c.xmin = false := by simpa using hdc.1
            have hD : FLOAT8_LE c.tmax c.tmin = false := by simpa using hdc.2
            have hxcd : 0 < float8_cmp_internal c.xmax c.xmin :=
              FLOAT8_LE_eq_false.mp hC
            have htcd : 0 < float8_cmp_internal c.tmax c.tmin :=
              FLOAT8_LE_eq_false.mp hD
            -- the bounds of c are finite, sandwiched between the bounds of u
            rw [hux] at hx2
            rcases le_fin_shape hx2 with hcx | ⟨sx, hsx, hcx⟩
            · rw [hcx] at hxcd
              have := f8cmp_ninf_le c.xmin
              omega
            rw [hun] at hx1
            rcases fin_le_shape hx1 with hcn | hcn | ⟨sn, hsn, hcn⟩
            · rw [hcx, hcn] at hxcd
              simp [float8_cmp_internal] at hxcd
            · rw [hcn] at hxcd
              have := f8cmp_le_nan c.xmax
              omega
            have hsnx : sn < sx := by
              rw [hcx, hcn] at hxcd
              exact f8cmp_fin_lt.mp (by rw [f8cmp_swap]; omega)
            rw [hut] at ht2
            rcases le_fin_shape ht2 with hct | ⟨st, hst, hct⟩
            · rw [hct] at htcd
              have := f8cmp_ninf_le c.tmin
              omega
            rw [hutn] at ht1
            rcases fin_le_shape ht1 with hctn | hctn | ⟨stn, hstn, hctn⟩
            · rw [hct, hctn] at htcd
              simp [float8_cmp_internal] at htcd
            · rw [hctn] at htcd
              have := f8cmp_le_nan c.tmax
              omega
            have hstt : stn < st := by
              rw [hct, hctn] at htcd
              exact f8cmp_fin_lt.mp (by rw [f8cmp_swap]; omega)
            have hsc : size_tbox c = .fin ((sx - sn) * (st - stn)) := by
              rw [size_tbox_product hC hD (by rw [hcx]; simp)]
              rw [hcx, hcn, hct, hctn]
              rfl
            have hpux : pun < pux := by
              have := f8cmp_fin_lt.mp
                (show float8_cmp_internal (.fin pun) (.fin pux) < 0 by
                  rw [← hun, ← hux, f8cmp_swap]; omega)
              exact this
            have hput : putn < put := by
              have := f8cmp_fin_lt.mp
                (show float8_cmp_internal (.fin putn) (.fin put) < 0 by
                  rw [← hutn, ← hut, f8cmp_swap]; omega)
              exact this
            refine Or.inr (Or.inr ⟨qu, (sx - sn) * (st - stn), ?_, ?_, hsu, hsc⟩)
            · exact le_of_lt (mul_pos (by linarith) (by linarith))
            · rw [hd, hdx', hdt']
              exact mul_le_mul (by linarith) (by linarith) (by linarith)
                (by linarith)

theorem nanFreeBox_iff {b : TBOX} : nanFreeBox b = true ↔
    b.xmin ≠ .nan ∧ b.xmax ≠ .nan ∧ b.tmin ≠ .nan ∧ b.tmax ≠ .nan := by
  simp [nanFreeBox, and_assoc]

theorem size_tbox_ne_nan {b : TBOX} (h : nanFreeBox b = true) :
    size_tbox b ≠ .nan := by
  rw [nanFreeBox_iff] at h
  by_cases hd : (FLOAT8_LE b.xmax b.xmin || FLOAT8_LE b.tmax b.tmin) = true
  · rw [size_tbox_degenerate hd]
    simp
  · rw [Bool.or_eq_true, not_or] at hd
    have hA : FLOAT8_LE b.xmax b.xmin = false := by simpa using hd.1
    have hB : FLOAT8_LE b.tmax b.tmin = false := by simpa using hd.2
    rw [size_tbox_product hA hB h.2.1]
    have hxshape := sub_pos_shape h.2.1
      (show float8_cmp_internal b.xmin b.xmax < 0 by
        rw [f8cmp_swap]
        have := FLOAT8_LE_eq_false.mp hA
        omega)
    have htshape := sub_pos_shape h.2.2.2
      (show float8_cmp_internal b.tmin b.tmax < 0 by
        rw [f8cmp_swap]
        have := FLOAT8_LE_eq_false.mp hB
        omega)
    rcases mul_pos_shape hxshape htshape with hp | ⟨q, _, hp⟩ <;> rw [hp] <;> simp

theorem union_contains_left (a b : TBOX) :
    float8_cmp_internal (rt_tbox_union a b).xmin a.xmin ≤ 0 ∧
    float8_cmp_internal a.xmax (rt_tbox_union a b).xmax ≤ 0 ∧
    float8_cmp_internal (rt_tbox_union a b).tmin a.tmin ≤ 0 ∧
    float8_cmp_internal a.tmax (rt_tbox_union a b).tmax ≤ 0 := by
  simp only [rt_tbox_union]
  exact ⟨FLOAT8_MIN_le_left _ _, le_FLOAT8_MAX_left _ _,
    FLOAT8_MIN_le_left _ _, le_FLOAT8_MAX_left _ _⟩

theorem union_contains_right (a b : TBOX) :
    float8_cmp_internal (rt_tbox_union a b).xmin b.xmin ≤ 0 ∧
    float8_cmp_internal b.xmax (rt_tbox_union a b).xmax ≤ 0 ∧
    float8_cmp_internal (rt_tbox_union a b).tmin b.tmin ≤ 0 ∧
    float8_cmp_internal b.tmax (rt_tbox_union a b).tmax ≤ 0 := by
  simp only [rt_tbox_union]
  exact ⟨FLOAT8_MIN_le_right _ _, le_FLOAT8_MAX_right _ _,
    FLOAT8_MIN_le_right _ _, le_FLOAT8_MAX_right _ _⟩

theorem size_union_ge_of_nanFree {a c : TBOX} (hc : nanFreeBox c = true)
    (hu : size_tbox a ≠ .nan)
    (hmono : size_tbox a = .nan ∨ size_tbox a = .pinf ∨
      ∃ qu qc, 0 ≤ qc ∧ qc ≤ qu ∧ size_tbox a = .fin qu ∧ size_tbox c = .fin qc) :
    FLOAT8_GE (size_tbox a) (size_tbox c) = true := by
  rcases hmono with hn | hp | ⟨qu, qc, _, hle, hsu, hsc⟩
  · exact absurd hn hu
  · rw [hp]
    simp only [FLOAT8_GE, ge_iff_le, decide_eq_true_eq]
    exact f8cmp_pinf_le (size_tbox_ne_nan hc)
  · rw [hsu, hsc]
    simp only [FLOAT8_GE, ge_iff_le, decide_eq_true_eq]
    rw [f8cmp_swap]
    have := f8cmp_fin_le.mpr hle
    omega

/-! ### Claim C7 -/

/-- **C7** fails as stated: with `a = [0,1]×[0,NaN]` and `b = [0,NaN]×[0,1]`,
`size(union(a,b)) = +infinity` while `size(a) = NaN`, and +infinity is below
NaN both under the NaN-aware order and under a native float comparison, so
`size(union(a,b)) ≥ size(a)` fails. -/
theorem size_union_not_monotone :
    size_tbox (rt_tbox_union ⟨.fin 0, .fin 1, .fin 0, .nan⟩
      ⟨.fin 0, .nan, .fin 0, .fin 1⟩) = .pinf ∧
    size_tbox ⟨.fin 0, .fin 1, .fin 0, .nan⟩ = .nan ∧
    FLOAT8_GE (size_tbox (rt_tbox_union ⟨.fin 0, .fin 1, .fin 0, .nan⟩
        ⟨.fin 0, .nan, .fin 0, .fin 1⟩))
      (size_tbox ⟨.fin 0, .fin 1, .fin 0, .nan⟩) = false ∧
    nativeGE (size_tbox (rt_tbox_union ⟨.fin 0, .fin 1, .fin 0, .nan⟩
        ⟨.fin 0, .nan, .fin 0, .fin 1⟩))
      (size_tbox ⟨.fin 0, .fin 1, .fin 0, .nan⟩) = false := by
  decide

/-- **C7** (amended): for all boxes `a`, `b` with NaN-free bounds,
`size(union(a,b)) ≥ size(a)` and `size(union(a,b)) ≥ size(b)`; and for *all*
boxes `a`, `b` (in particular all valid non-degenerate ones),
`penalty(a,b) = size(union(a,b)) − size(a)` is nonnegative under the
NaN-aware order (the difference can be NaN, which the order places above
every number). -/
theorem union_monotonicity_spec :
    (∀ a b : TBOX, nanFreeBox a = true → nanFreeBox b = true →
      FLOAT8_GE (size_tbox (rt_tbox_union a b)) (size_tbox a) = true ∧
      FLOAT8_GE (size_tbox (rt_tbox_union a b)) (size_tbox b) = true) ∧
    (∀ a b : TBOX, FLOAT8_GE (box_penalty a b) (.fin 0) = true) := by
  constructor
  · intro a b ha hb
    have hu : nanFreeBox (rt_tbox_union a b) = true := by
      rw [nanFreeBox_iff] at ha hb ⊢
      simp only [rt_tbox_union]
      exact ⟨FLOAT8_MIN_ne_nan ha.1 hb.1, FLOAT8_MAX_ne_nan ha.2.1 hb.2.1,
        FLOAT8_MIN_ne_nan ha.2.2.1 hb.2.2.1, FLOAT8_MAX_ne_nan ha.2.2.2 hb.2.2.2⟩
    obtain ⟨h1, h2, h3, h4⟩ := union_contains_left a b
    obtain ⟨h5, h6, h7, h8⟩ := union_contains_right a b
    exact ⟨size_union_ge_of_nanFree ha (size_tbox_ne_nan hu)
        (size_mono_of_contained h1 h2 h3 h4),
      size_union_ge_of_nanFree hb (size_tbox_ne_nan hu)
        (size_mono_of_contained h5 h6 h7 h8)⟩
  · intro a b
    obtain ⟨h1, h2, h3, h4⟩ := union_contains_left a b
    rcases size_mono_of_contained h1 h2 h3 h4 with hn | hp | ⟨qu, qc, h0, hle, hsu, hsc⟩
    · rw [box_penalty, hn]
      cases hsa : size_tbox a <;> simp [F8.sub, FLOAT8_GE, float8_cmp_internal]
    · rw [box_penalty, hp]
      cases hsa : size_tbox a <;> simp [F8.sub, FLOAT8_GE, float8_cmp_internal]
    · rw [box_penalty, hsu, hsc]
      have hsub : (F8.fin qu).sub (.fin qc) = .fin (qu - qc) := rfl
      rw [hsub]
      simp only [FLOAT8_GE, ge_iff_le, decide_eq_true_eq]
      rw [f8cmp_swap]
      have := f8cmp_fin_le.mpr (show (0:ℚ) ≤ qu - qc by linarith)
      omega

/-- Witness for the amended C7 theorem at concrete NaN-free boxes. -/
theorem union_monotonicity_spec_witness :
    FLOAT8_GE (size_tbox (rt_tbox_union ⟨.fin 0, .fin 1, .fin 0, .fin 1⟩
        ⟨.fin 0, .fin 2, .fin 0, .fin 2⟩))
      (size_tbox ⟨.fin 0, .fin 1, .fin 0, .fin 1⟩) = true :=
  (union_monotonicity_spec.1 ⟨.fin 0, .fin 1, .fin 0, .fin 1⟩
    ⟨.fin 0, .fin 2, .fin 0, .fin 2⟩ (by decide) (by decide)).1

/-- Witness for the amended C4 theorem: penalty of inserting a box with
`xmax = NaN` into a concrete finite non-degenerate box is +infinity. -/
theorem size_tbox_nan_spec_witness :
    box_penalty ⟨.fin 0, .fin 1, .fin 0, .fin 1⟩ ⟨.fin 2, .nan, .fin 0, .fin 1⟩
      = .pinf :=
  size_tbox_nan_spec.2 ⟨.fin 0, .fin 1, .fin 0, .fin 1⟩
    ⟨.fin 2, .nan, .fin 0, .fin 1⟩ (by decide) (by decide) rfl

/-! ### Claim C8: the trivial fallback split -/

theorem fallback_fold_spec (m : Nat) :
    ∀ (l : List (Nat × TBOX)) (v : GIST_SPLITVEC),
      (List.foldl (fallbackStep m) v l).spl_left
        = v.spl_left ++ (l.map (fun p => p.1 + 1)).filter (fun i => i ≤ m / 2) ∧
      (List.foldl (fallbackStep m) v l).spl_right
        = v.spl_right ++ (l.map (fun p => p.1 + 1)).filter (fun i => !(i ≤ m / 2))
  | [], v => by simp
  | a :: t, v => by
    have ih := fallback_fold_spec m t (fallbackStep m v a)
    by_cases h : a.1 + 1 ≤ m / 2
    · have hstep : (fallbackStep m v a).spl_left = v.spl_left ++ [a.1 + 1] ∧
          (fallbackStep m v a).spl_right = v.spl_right := by
        simp [fallbackStep, h]
      simp only [List.foldl_cons, List.map_cons, List.filter_cons]
      rw [ih.1, ih.2, hstep.1, hstep.2]
      simp [h]
    · have hstep : (fallbackStep m v a).spl_left = v.spl_left ∧
          (fallbackStep m v a).spl_right = v.spl_right ++ [a.1 + 1] := by
        simp [fallbackStep, h]
      simp only [List.foldl_cons, List.map_cons, List.filter_cons]
      rw [ih.1, ih.2, hstep.1, hstep.2]
      simp [h]

theorem enum_offsets (boxes : List TBOX) :
    boxes.enum.map (fun p => p.1 + 1) = List.range' 1 boxes.length := by
  have h1 : boxes.enum.map (fun p => p.1 + 1)
      = (boxes.enum.map Prod.fst).map (fun i => i + 1) := by
    rw [List.map_map]
    rfl
  rw [h1, List.enum_eq_zip_range, List.map_fst_zip _ _ (by simp),
    List.range'_eq_map_range]
  apply List.map_congr_left
  intro a _
  omega

theorem fallback_split_halves (boxes : List TBOX) :
    (tbox_fallbackSplit boxes).spl_left = List.range' 1 (boxes.length / 2) ∧
    (tbox_fallbackSplit boxes).spl_right
      = List.range' (1 + boxes.length / 2) (boxes.length - boxes.length / 2) := by
  have hsplit : List.range' 1 boxes.length
      = List.range' 1 (boxes.length / 2)
        ++ List.range' (1 + boxes.length / 2) (boxes.length - boxes.length / 2) := by
    rw [List.range'_append_1]
    congr 1
    omega
  have h := fallback_fold_spec boxes.length boxes.enum ⟨[], [], none, none⟩
  constructor
  · rw [show (tbox_fallbackSplit boxes).spl_left
        = (List.foldl (fallbackStep boxes.length) ⟨[], [], none, none⟩
            boxes.enum).spl_left from rfl, h.1, enum_offsets, hsplit,
      List.filter_append]
    have hl : (List.range' 1 (boxes.length / 2)).filter
        (fun i => i ≤ boxes.length / 2) = List.range' 1 (boxes.length / 2) := by
      rw [List.filter_eq_self]
      intro a ha
      rw [List.mem_range'_1] at ha
      simp
      omega
    have hr : (List.range' (1 + boxes.length / 2)
        (boxes.length - boxes.length / 2)).filter
          (fun i => i ≤ boxes.length / 2) = [] := by
      rw [List.filter_eq_nil_iff]
      intro a ha
      rw [List.mem_range'_1] at ha
      simp
      omega
    rw [hl, hr]
    simp
  · rw [show (tbox_fallbackSplit boxes).spl_right
        = (List.foldl (fallbackStep boxes.length) ⟨[], [], none, none⟩
            boxes.enum).spl_right from rfl, h.2, enum_offsets, hsplit,
      List.filter_append]
    have hl : (List.range' 1 (boxes.length / 2)).filter
        (fun i => !(i ≤ boxes.length / 2)) = [] := by
      rw [List.filter_eq_nil_iff]
      intro a ha
      rw [List.mem_range'_1] at ha
      simp
      omega
    have hr : (List.range' (1 + boxes.length / 2)
        (boxes.length - boxes.length / 2)).filter
          (fun i => !(i ≤ boxes.length / 2))
        = List.range' (1 + boxes.length / 2)
            (boxes.length - boxes.length / 2) := by
      rw [List.filter_eq_self]
      intro a ha
      rw [List.mem_range'_1] at ha
      simp
      omega
    rw [hl, hr]
    simp

/-- **C8**: when the axis scans accepted no candidate (the context is still
`first`), `gist_tbox_picksplit` performs the trivial split and nothing else;
the trivial split unconditionally assigns the first half of the entries
(offsets `1 .. n/2`, in input order) to the left partition and the rest
(offsets `n/2 + 1 .. n`) to the right partition, and for `n ≥ 2` both
partitions are nonempty, so a structurally valid split is always produced
(the function is total — no error path exists). -/
theorem trivial_split_fallback (boxes : List TBOX) (h : 2 ≤ boxes.length) :
    ((pickSplitContext boxes).first = true →
      gist_tbox_picksplit boxes = tbox_fallbackSplit boxes) ∧
    (tbox_fallbackSplit boxes).spl_left = List.range' 1 (boxes.length / 2) ∧
    (tbox_fallbackSplit boxes).spl_right
      = List.range' (1 + boxes.length / 2) (boxes.length - boxes.length / 2) ∧
    0 < (tbox_fallbackSplit boxes).spl_left.length ∧
    0 < (tbox_fallbackSplit boxes).spl_right.length := by
  refine ⟨?_, (fallback_split_halves boxes).1, (fallback_split_halves boxes).2,
    ?_, ?_⟩
  · intro hf
    simp [gist_tbox_picksplit, hf]
  · rw [(fallback_split_halves boxes).1]
    simp
    omega
  · rw [(fallback_split_halves boxes).2]
    simp
    omega

/-- Witness for C8 at a concrete two-entry vector. -/
theorem trivial_split_fallback_witness :
    (tbox_fallbackSplit [zeroBox, zeroBox]).spl_left = List.range' 1 1 :=
  (trivial_split_fallback [zeroBox, zeroBox] (by decide)).2.1

/-! ### Counting and sortedness utilities for the scan invariants -/

theorem countP_and_split {α : Type} (l : List α) (p q : α → Bool) :
    l.countP p
      = l.countP (fun a => p a && q a) + l.countP (fun a => p a && !q a) := by
  induction l with
  | nil => simp
  | cons a t ih =>
    simp only [List.countP_cons]
    cases hp : p a <;> cases hq : q a <;> simp [hp, hq] <;> omega

theorem getD_eq_getElem' {α : Type} [Inhabited α] (l : List α) (k : Nat)
    (h : k < l.length) : l.getD k default = l[k] := by
  simp [List.getD_eq_getElem?_getD, List.getElem?_eq_getElem h]

theorem countP_eq_of_split {α : Type} [Inhabited α] (l : List α) (p : α → Bool)
    (j : Nat) (hj : j ≤ l.length)
    (h1 : ∀ k, k < j → p (l.getD k default) = true)
    (h2 : ∀ k, j ≤ k → k < l.length → p (l.getD k default) = false) :
    l.countP p = j := by
  have hsplit : l.countP p = (l.take j).countP p + (l.drop j).countP p := by
    rw [← List.countP_append, List.take_append_drop]
  have ht : (l.take j).countP p = j := by
    have hlen : (l.take j).length = j := by
      rw [List.length_take]
      omega
    have hall : ∀ a ∈ l.take j, p a := by
      intro a ha
      obtain ⟨i, hi, rfl⟩ := List.mem_iff_getElem.mp ha
      have hij : i < j := by
        rw [hlen] at hi
        exact hi
      have he : (l.take j)[i] = l.getD i default := by
        rw [List.getElem_take, getD_eq_getElem' _ _ (by omega)]
      rw [he]
      exact h1 i hij
    rw [List.countP_eq_length.mpr hall, hlen]
  have hd : (l.drop j).countP p = 0 := by
    rw [List.countP_eq_zero]
    intro a ha
    obtain ⟨i, hi, rfl⟩ := List.mem_iff_getElem.mp ha
    have hlen : (l.drop j).length = l.length - j := List.length_drop _ _
    have he : (l.drop j)[i] = l.getD (j + i) default := by
      rw [List.getElem_drop, getD_eq_getElem' _ _ (by omega)]
    have hp : p ((l.drop j)[i]) = false := by
      rw [he]
      exact h2 (j + i) (by omega) (by omega)
    simp [hp]
    rw [← getD_eq_getElem' l (j + i) (by omega)]
    exact h2 (j + i) (by omega) (by omega)
  omega

theorem leLower_trans : ∀ a b c : SplitInterval,
    leLower a b → leLower b c → leLower a c := by
  intro a b c h1 h2
  simp only [leLower, interval_cmp_lower, decide_eq_true_eq] at *
  exact f8cmp_le_trans h1 h2

theorem leLower_total : ∀ a b : SplitInterval, leLower a b || leLower b a := by
  intro a b
  simp only [leLower, interval_cmp_lower, Bool.or_eq_true, decide_eq_true_eq]
  have := f8cmp_swap a.lower b.lower
  omega

theorem leUpper_trans : ∀ a b c : SplitInterval,
    leUpper a b → leUpper b c → leUpper a c := by
  intro a b c h1 h2
  simp only [leUpper, interval_cmp_upper, decide_eq_true_eq] at *
  exact f8cmp_le_trans h1 h2

theorem leUpper_total : ∀ a b : SplitInterval, leUpper a b || leUpper b a := by
  intro a b
  simp only [leUpper, interval_cmp_upper, Bool.or_eq_true, decide_eq_true_eq]
  have := f8cmp_swap a.upper b.upper
  omega

theorem lowerSorted_mergeSort (l : List SplitInterval) :
    lowerSorted (l.mergeSort leLower) :=
  List.sorted_mergeSort leLower_trans leLower_total l

theorem upperSorted_mergeSort (l : List SplitInterval) :
    upperSorted (l.mergeSort leUpper) :=
  List.sorted_mergeSort leUpper_trans leUpper_total l

theorem lowerSorted_le {arr : List SplitInterval} (hs : lowerSorted arr)
    {k k' : Nat} (hkk : k ≤ k') (hk' : k' < arr.length) :
    float8_cmp_internal (arr.getD k default).lower
      (arr.getD k' default).lower ≤ 0 := by
  rcases eq_or_lt_of_le hkk with rfl | hlt
  · simp [f8cmp_self]
  · have hp := List.pairwise_iff_getElem.mp hs k k' (by omega) hk' hlt
    rw [getD_eq_getElem' _ _ (by omega), getD_eq_getElem' _ _ hk']
    simpa [leLower, interval_cmp_lower] using hp

theorem upperSorted_le {arr : List SplitInterval} (hs : upperSorted arr)
    {k k' : Nat} (hkk : k ≤ k') (hk' : k' < arr.length) :
    float8_cmp_internal (arr.getD k default).upper
      (arr.getD k' default).upper ≤ 0 := by
  rcases eq_or_lt_of_le hkk with rfl | hlt
  · simp [f8cmp_self]
  · have hp := List.pairwise_iff_getElem.mp hs k k' (by omega) hk' hlt
    rw [getD_eq_getElem' _ _ (by omega), getD_eq_getElem' _ _ hk']
    simpa [leUpper, interval_cmp_upper] using hp

/-- Specification of `consumeLower`: starting inside the array, it consumes
exactly a maximal run of intervals whose lower bound compares equal to
`rightLower`, only grows `leftUpper`, and the final `leftUpper` dominates
every consumed upper bound. -/
theorem consumeLower_spec (arr : List SplitInterval) (rl : F8) :
    ∀ (i1 : Nat) (lu : F8), i1 ≤ arr.length →
      i1 + (consumeLower arr rl i1 lu).1 ≤ arr.length ∧
      (∀ k, i1 ≤ k → k < i1 + (consumeLower arr rl i1 lu).1 →
        FLOAT8_EQ rl (arr.getD k default).lower = true) ∧
      (i1 + (consumeLower arr rl i1 lu).1 < arr.length →
        FLOAT8_EQ rl
          (arr.getD (i1 + (consumeLower arr rl i1 lu).1) default).lower
          = false) ∧
      float8_cmp_internal lu (consumeLower arr rl i1 lu).2 ≤ 0 ∧
      (∀ k, i1 ≤ k → k < i1 + (consumeLower arr rl i1 lu).1 →
        FLOAT8_LE (arr.getD k default).upper (consumeLower arr rl i1 lu).2
          = true) := by
  intro i1 lu
  induction i1, lu using consumeLower.induct arr rl with
  | case1 i1 lu h ih =>
    intro hle
    rw [consumeLower, dif_pos h]
    dsimp only
    have hstep : i1 + 1 ≤ arr.length := h.1
    have ih' := ih hstep
    simp only [dite_eq_ite] at ih'
    set lu' := if FLOAT8_LT lu (arr.getD i1 default).upper = true then
      (arr.getD i1 default).upper else lu with hlu'
    set c := consumeLower arr rl (i1 + 1) lu' with hc
    have hlulu' : float8_cmp_internal lu lu' ≤ 0 := by
      rw [hlu']
      split
      · next hsp =>
        rw [FLOAT8_LT_iff] at hsp
        omega
      · simp [f8cmp_self]
    have hup : float8_cmp_internal (arr.getD i1 default).upper lu' ≤ 0 := by
      rw [hlu']
      split
      · simp [f8cmp_self]
      · next hsp =>
        have : ¬(FLOAT8_LT lu (arr.getD i1 default).upper = true) := hsp
        rw [FLOAT8_LT_iff] at this
        rw [f8cmp_swap]
        omega
    refine ⟨by omega, ?_, ?_, ?_, ?_⟩
    · intro k hk1 hk2
      rcases Nat.eq_or_lt_of_le hk1 with rfl | hk1'
      · exact h.2
      · exact ih'.2.1 k hk1' (by omega)
    · intro hlt
      have := ih'.2.2.1 (by omega)
      rw [show i1 + (c.1 + 1) = i1 + 1 + c.1 by omega]
      exact this
    · exact f8cmp_le_trans hlulu' ih'.2.2.2.1
    · intro k hk1 hk2
      rcases Nat.eq_or_lt_of_le hk1 with rfl | hk1'
      · rw [FLOAT8_LE_iff]
        exact f8cmp_le_trans hup ih'.2.2.2.1
      · exact ih'.2.2.2.2 k hk1' (by omega)
  | case2 i1 lu h =>
    intro hle
    rw [consumeLower, dif_neg h]
    refine ⟨by omega, by omega, ?_, by simp [f8cmp_self], by omega⟩
    intro hlt
    simp only [Nat.add_zero] at hlt
    rcases Classical.em (FLOAT8_EQ rl (arr.getD i1 default).lower = true) with he | he
    · exact absurd ⟨hlt, he⟩ h
    · simp only [Bool.not_eq_true] at he
      exact he

/-- Specification of `advanceUpper`: it advances to the first position whose
upper bound exceeds `leftUpper`, all skipped positions having upper bounds
at most `leftUpper`. -/
theorem advanceUpper_spec (arrU : List SplitInterval) (lu : F8) :
    ∀ i2 : Nat, i2 ≤ arrU.length →
      i2 ≤ advanceUpper arrU lu i2 ∧
      advanceUpper arrU lu i2 ≤ arrU.length ∧
      (∀ k, i2 ≤ k → k < advanceUpper arrU lu i2 →
        FLOAT8_LE (arrU.getD k default).upper lu = true) ∧
      (advanceUpper arrU lu i2 < arrU.length →
        FLOAT8_LE (arrU.getD (advanceUpper arrU lu i2) default).upper lu
          = false) := by
  intro i2
  induction i2 using advanceUpper.induct arrU lu with
  | case1 x h ih =>
    intro hle
    rw [advanceUpper, dif_pos h]
    have ih' := ih h.1
    refine ⟨by omega, ih'.2.1, ?_, ih'.2.2.2⟩
    intro k hk1 hk2
    rcases Nat.eq_or_lt_of_le hk1 with rfl | hk1'
    · exact h.2
    · exact ih'.2.2.1 k hk1' hk2
  | case2 x h =>
    intro hle
    rw [advanceUpper, dif_neg h]
    refine ⟨le_refl x, hle, by omega, ?_⟩
    intro hlt
    rcases Classical.em (FLOAT8_LE (arrU.getD x default).upper lu = true) with he | he
    · exact absurd ⟨hlt, he⟩ h
    · simp only [Bool.not_eq_true] at he
      exact he

/-- Specification of `retreatLower`: it moves down to the first position
(one past) whose lower bound is below `rightLower`, all skipped positions
having lower bounds at least `rightLower`. -/
theorem retreatLower_spec (arr : List SplitInterval) (rl : F8) :
    ∀ j1 : Nat, j1 ≤ arr.length →
      retreatLower arr rl j1 ≤ j1 ∧
      (∀ k, retreatLower arr rl j1 ≤ k → k < j1 →
        FLOAT8_GE (arr.getD k default).lower rl = true) ∧
      (0 < retreatLower arr rl j1 →
        FLOAT8_GE (arr.getD (retreatLower arr rl j1 - 1) default).lower rl
          = false) := by
  intro j1
  induction j1 using retreatLower.induct arr rl with
  | case1 x h ih =>
    intro hle
    rw [retreatLower, dif_pos h]
    have ih' := ih (by omega)
    refine ⟨by omega, ?_, ih'.2.2⟩
    intro k hk1 hk2
    rcases Nat.eq_or_lt_of_le (Nat.le_sub_one_of_lt hk2) with hk | hk
    · rw [hk]
      exact h.2
    · exact ih'.2.1 k hk1 (by omega)
  | case2 x h =>
    intro hle
    rw [retreatLower, dif_neg h]
    refine ⟨le_refl x, by omega, ?_⟩
    intro hlt
    rcases Classical.em (FLOAT8_GE (arr.getD (x - 1) default).lower rl = true)
      with he | he
    · exact absurd ⟨hlt, he⟩ h
    · simp only [Bool.not_eq_true] at he
      exact he

/-- Specification of `consumeUpper`: starting inside the array, it consumes
downward exactly a maximal run of intervals whose upper bound compares equal
to `leftUpper`, only shrinks `rightLower`, and the final `rightLower` is at
most every consumed lower bound. -/
theorem consumeUpper_spec (arrU : List SplitInterval) (lu : F8) :
    ∀ (j2 : Nat) (rl : F8), j2 ≤ arrU.length →
      (consumeUpper arrU lu j2 rl).1 ≤ j2 ∧
      (∀ k, j2 - (consumeUpper arrU lu j2 rl).1 ≤ k → k < j2 →
        FLOAT8_EQ lu (arrU.getD k default).upper = true) ∧
      (0 < j2 - (consumeUpper arrU lu j2 rl).1 →
        FLOAT8_EQ lu
          (arrU.getD (j2 - (consumeUpper arrU lu j2 rl).1 - 1) default).upper
          = false) ∧
      float8_cmp_internal (consumeUpper arrU lu j2 rl).2 rl ≤ 0 ∧
      (∀ k, j2 - (consumeUpper arrU lu j2 rl).1 ≤ k → k < j2 →
        float8_cmp_internal (consumeUpper arrU lu j2 rl).2
          (arrU.getD k default).lower ≤ 0) := by
  intro j2 rl
  induction j2, rl using consumeUpper.induct arrU lu with
  | case1 j2 rl h ih =>
    intro hle
    rw [consumeUpper, dif_pos h]
    dsimp only
    have ih' := ih (by omega)
    simp only [dite_eq_ite] at ih'
    set rl' := if FLOAT8_GT rl (arrU.getD (j2 - 1) default).lower = true then
      (arrU.getD (j2 - 1) default).lower else rl with hrl'
    set c := consumeUpper arrU lu (j2 - 1) rl' with hc
    have hcle : c.1 ≤ j2 - 1 := ih'.1
    have hrlrl : float8_cmp_internal rl' rl ≤ 0 := by
      rw [hrl']
      split
      · next hsp =>
        rw [FLOAT8_GT_iff] at hsp
        rw [f8cmp_swap]
        omega
      · simp [f8cmp_self]
    have hrllow : float8_cmp_internal rl' (arrU.getD (j2 - 1) default).lower ≤ 0 := by
      rw [hrl']
      split
      · simp [f8cmp_self]
      · next hsp =>
        have h2 : ¬(FLOAT8_GT rl (arrU.getD (j2 - 1) default).lower = true) := hsp
        rw [FLOAT8_GT_iff] at h2
        omega
    refine ⟨by omega, ?_, ?_, ?_, ?_⟩
    · intro k hk1 hk2
      rcases Nat.eq_or_lt_of_le (Nat.le_sub_one_of_lt hk2) with hk | hk
      · rw [hk]
        exact h.2
      · exact ih'.2.1 k (by omega) (by omega)
    · intro hlt
      have := ih'.2.2.1 (by omega)
      rw [show j2 - (c.1 + 1) - 1 = j2 - 1 - c.1 - 1 by omega]
      exact this
    · exact f8cmp_le_trans ih'.2.2.2.1 hrlrl
    · intro k hk1 hk2
      rcases Nat.eq_or_lt_of_le (Nat.le_sub_one_of_lt hk2) with hk | hk
      · rw [hk]
        exact f8cmp_le_trans ih'.2.2.2.1 hrllow
      · exact ih'.2.2.2.2 k (by omega) (by omega)
  | case2 j2 rl h =>
    intro hle
    rw [consumeUpper, dif_neg h]
    refine ⟨by omega, by omega, ?_, by simp [f8cmp_self], by omega⟩
    intro hlt
    simp only [Nat.sub_zero] at hlt
    rcases Classical.em
      (FLOAT8_EQ lu (arrU.getD (j2 - 1) default).upper = true) with he | he
    · exact absurd ⟨hlt, he⟩ h
    · simp only [Bool.not_eq_true] at he
      rw [Nat.sub_zero]
      exact he

theorem FLOAT8_GE_eq_not_LT (a b : F8) : FLOAT8_GE a b = !FLOAT8_LT a b := by
  simp only [FLOAT8_GE, FLOAT8_LT]
  rw [← decide_not]
  exact decide_eq_decide.mpr (by omega)

/-- Arithmetic core of candidate acceptance: if `considerRatio` (with
`leftCount` clamped between the forced-left count `mL` and the fits-left
count `xL`) exceeds `LIMIT_RATIO`, then both `xL` and `n - mL` are at
least the quota `ceil(LIMIT_RATIO * n)`, and `n` can accommodate the quota
on both sides. -/
theorem quota_of_accepted {n mL xL : Nat} (hmx : mL ≤ xL)
    (h : considerRatio n mL xL > splitLimit) :
    splitQuota n ≤ xL ∧ splitQuota n ≤ n - mL ∧ 2 * splitQuota n ≤ n := by
  rw [considerRatio] at h
  set lc := considerLeftCount n mL xL with hlc
  have hlcb : mL ≤ lc ∧ lc ≤ xL := by
    rw [hlc, considerLeftCount]
    split_ifs <;> omega
  have hn0 : 0 < n := by
    by_contra h0
    have : n = 0 := by omega
    subst this
    rw [Nat.cast_zero, div_zero, splitLimit] at h
    norm_num at h
  have hq : (3 : ℚ) * (n : ℚ) < ((min lc (n - lc) : ℕ) : ℚ) * 10 := by
    rw [splitLimit, gt_iff_lt, div_lt_div_iff (by norm_num)
      (by exact_mod_cast hn0)] at h
    exact h
  have hnat : 3 * n < (min lc (n - lc)) * 10 := by exact_mod_cast hq
  have hquota : splitQuota n ≤ min lc (n - lc) := by
    rw [splitQuota]
    omega
  refine ⟨?_, ?_, ?_⟩ <;> omega

/-- `g_tbox_consider_split` either leaves the context unchanged or, when the
candidate ratio clears `LIMIT_RATIO` and the candidate is selected, stores
the candidate split in the context. -/
theorem g_tbox_consider_split_cases (ctx : ConsiderSplitContext) (dimNum : Nat)
    (rl : F8) (mL : Nat) (lu : F8) (xL : Nat) :
    g_tbox_consider_split ctx dimNum rl mL lu xL = ctx ∨
    (considerRatio ctx.entriesCount mL xL > splitLimit ∧
      (g_tbox_consider_split ctx dimNum rl mL lu xL).first = false ∧
      (g_tbox_consider_split ctx dimNum rl mL lu xL).dim = dimNum ∧
      (g_tbox_consider_split ctx dimNum rl mL lu xL).leftUpper = lu ∧
      (g_tbox_consider_split ctx dimNum rl mL lu xL).rightLower = rl ∧
      (g_tbox_consider_split ctx dimNum rl mL lu xL).entriesCount
        = ctx.entriesCount) := by
  unfold g_tbox_consider_split
  dsimp only
  split_ifs
  all_goals
    first
    | (left
       rfl)
    | (right
       refine ⟨?_, rfl, rfl, rfl, rfl, rfl⟩
       assumption)

/-- `g_tbox_consider_split` preserves the scan invariant: if the forced-left
count `mL` counts the projected intervals with lower bound strictly below
`rl`, the fits-left count `xL` counts those with upper bound at most `lu`,
and every forced-left interval fits left, then the updated context is still
good and keeps its entries count. -/
theorem g_tbox_consider_split_good {boxes : List TBOX} {ctx : ConsiderSplitContext}
    (hgood : ctxGood boxes ctx) (hn : ctx.entriesCount = boxes.length)
    (dimNum : Nat) (rl lu : F8) (mL xL : Nat)
    (ha : mL = (boxes.map (projInterval dimNum)).countP
      (fun iv => FLOAT8_LT iv.lower rl))
    (hb : xL = (boxes.map (projInterval dimNum)).countP
      (fun iv => FLOAT8_LE iv.upper lu))
    (hc : ∀ iv ∈ boxes.map (projInterval dimNum),
      FLOAT8_LT iv.lower rl = true → FLOAT8_LE iv.upper lu = true) :
    ctxGood boxes (g_tbox_consider_split ctx dimNum rl mL lu xL) ∧
    (g_tbox_consider_split ctx dimNum rl mL lu xL).entriesCount
      = boxes.length := by
  have hmx : mL ≤ xL := by
    rw [ha, hb]
    exact List.countP_mono_left hc
  rcases g_tbox_consider_split_cases ctx dimNum rl mL lu xL with
    heq | ⟨h1, _, hd, hlu, hrl, he⟩
  · rw [heq]
    exact ⟨hgood, hn⟩
  · rw [hn] at h1
    obtain ⟨hq1, hq2, _⟩ := quota_of_accepted hmx h1
    refine ⟨?_, by rw [he, hn]⟩
    simp only [ctxGood]
    intro _
    rw [hd]
    constructor
    · have hcl : ((boxes.map (projInterval dimNum)).countP
            (fitsLeftB (g_tbox_consider_split ctx dimNum rl mL lu xL)))
          = (boxes.map (projInterval dimNum)).countP
              (fun iv => FLOAT8_LE iv.upper lu) := by
        apply List.countP_congr
        intro iv _
        rw [fitsLeftB, hlu]
      rw [hcl, ← hb]
      exact hq1
    · have hcr : ((boxes.map (projInterval dimNum)).countP
            (fitsRightB (g_tbox_consider_split ctx dimNum rl mL lu xL)))
          = (boxes.map (projInterval dimNum)).countP
              (fun iv => FLOAT8_GE iv.lower rl) := by
        apply List.countP_congr
        intro iv _
        rw [fitsRightB, hrl]
      have hge : ((boxes.map (projInterval dimNum)).countP
            fun iv => FLOAT8_GE iv.lower rl)
          = (boxes.map (projInterval dimNum)).length
            - ((boxes.map (projInterval dimNum)).countP
                fun iv => FLOAT8_LT iv.lower rl) := by
        simp only [FLOAT8_GE_eq_not_LT]
        have htot := List.length_eq_countP_add_countP
          (fun iv : SplitInterval => FLOAT8_LT iv.lower rl)
          (l := boxes.map (projInterval dimNum))
        have hcong : ((boxes.map (projInterval dimNum)).countP
              fun iv => !FLOAT8_LT iv.lower rl)
            = ((boxes.map (projInterval dimNum)).countP
                fun iv => ¬FLOAT8_LT iv.lower rl = true) := by
          apply List.countP_congr
          intro iv _
          simp
        rw [hcong]
        omega
      rw [hcr, hge, ← ha]
      simpa using hq2

theorem FLOAT8_LT_eq_false {a b : F8} :
    FLOAT8_LT a b = false ↔ 0 ≤ float8_cmp_internal a b := by
  simp only [FLOAT8_LT, decide_eq_false_iff_not]
  omega

theorem FLOAT8_GE_eq_false {a b : F8} :
    FLOAT8_GE a b = false ↔ float8_cmp_internal a b < 0 := by
  simp only [FLOAT8_GE, decide_eq_false_iff_not]
  omega

/-- The first candidate-scan loop preserves the split-context invariant.
`arr` is the lower-sorted and `arrU` the upper-sorted projection of the
entries; the scan-state hypotheses say that every entry before `i1` has a
strictly smaller lower bound than the one at `i1`, and that the uppers of
all passed entries (in both arrays) are bounded by the current `lu`. -/
theorem scan1_good (boxes : List TBOX) (dim : Nat)
    (arr arrU : List SplitInterval)
    (harr : arr.Perm (boxes.map (projInterval dim)))
    (harrU : arrU.Perm (boxes.map (projInterval dim)))
    (hsl : lowerSorted arr) (hsu : upperSorted arrU) :
    ∀ (ctx : ConsiderSplitContext) (i1 i2 : Nat) (lu : F8),
      ctxGood boxes ctx → ctx.entriesCount = boxes.length →
      i2 ≤ arrU.length →
      (i1 < arr.length → ∀ k, k < i1 →
        float8_cmp_internal (arr.getD k default).lower
          (arr.getD i1 default).lower < 0) →
      (∀ k, k < i1 → FLOAT8_LE (arr.getD k default).upper lu = true) →
      (∀ k, k < i2 → FLOAT8_LE (arrU.getD k default).upper lu = true) →
      ctxGood boxes (scan1 arr arrU dim ctx i1 i2 lu) ∧
      (scan1 arr arrU dim ctx i1 i2 lu).entriesCount = boxes.length := by
  intro ctx i1 i2 lu
  induction ctx, i1, i2, lu using scan1.induct arr arrU dim with
  | case1 ctx i1 i2 lu h rl lu0 c i1' h2 rl' i2' ih =>
    intro hgood hn hi2 hrun hupL hupU
    have hrlE : rl = (arr.getD i1 default).lower := rfl
    have hlu0E : lu0 = if FLOAT8_LT lu (arr.getD i1 default).upper = true then
        (arr.getD i1 default).upper else lu := rfl
    have hcE : c = consumeLower arr rl (i1 + 1) lu0 := rfl
    have hi1'E : i1' = i1 + 1 + c.1 := rfl
    have hrl'E : rl' = (arr.getD i1' default).lower := rfl
    have hi2'E : i2' = advanceUpper arrU c.2 i2 := rfl
    have hlu_lu0 : float8_cmp_internal lu lu0 ≤ 0 := by
      rw [hlu0E]
      split
      · next hsp =>
        rw [FLOAT8_LT_iff] at hsp
        omega
      · simp [f8cmp_self]
    have hup_i1 : float8_cmp_internal (arr.getD i1 default).upper lu0 ≤ 0 := by
      rw [hlu0E]
      split
      · simp [f8cmp_self]
      · next hsp =>
        have hsp' : ¬(FLOAT8_LT lu (arr.getD i1 default).upper = true) := hsp
        rw [FLOAT8_LT_iff] at hsp'
        rw [f8cmp_swap]
        omega
    have hcs := consumeLower_spec arr rl (i1 + 1) lu0 (by omega)
    rw [← hcE, ← hi1'E] at hcs
    have hluc : float8_cmp_internal lu c.2 ≤ 0 :=
      f8cmp_le_trans hlu_lu0 hcs.2.2.2.1
    have hupi1c : float8_cmp_internal (arr.getD i1 default).upper c.2 ≤ 0 :=
      f8cmp_le_trans hup_i1 hcs.2.2.2.1
    have hrunEq : ∀ k, i1 ≤ k → k < i1' → (arr.getD k default).lower = rl := by
      intro k hk1 hk2
      rcases Nat.eq_or_lt_of_le hk1 with rfl | hk1'
      · rw [hrlE]
      · exact (FLOAT8_EQ_iff.mp (hcs.2.1 k (by omega) (by omega))).symm
    have hi1'len : i1' ≤ arr.length := hcs.1
    have hrlrl' : float8_cmp_internal rl rl' < 0 := by
      have hle : float8_cmp_internal rl rl' ≤ 0 := by
        rw [hrlE, hrl'E]
        exact lowerSorted_le hsl (by omega) h2
      have hne : rl ≠ rl' := by
        intro heq
        have hf := hcs.2.2.1 h2
        rw [← hrl'E, ← heq] at hf
        simp [FLOAT8_EQ, f8cmp_self] at hf
      rcases lt_or_eq_of_le hle with hlt | heq0
      · exact hlt
      · exact absurd (f8cmp_eq_zero_iff.mp heq0) hne
    have hlow : ∀ k, k < i1' →
        float8_cmp_internal (arr.getD k default).lower rl' < 0 := by
      intro k hk
      rcases Nat.lt_or_ge k i1 with hki | hki
      · exact f8cmp_lt_of_lt_of_le (hrun h k hki) (le_of_lt hrlrl')
      · have heq := hrunEq k hki hk
        rw [heq]
        exact hrlrl'
    have hhigh : ∀ k, i1' ≤ k → k < arr.length →
        FLOAT8_LT (arr.getD k default).lower rl' = false := by
      intro k hk1 hk2
      rw [FLOAT8_LT_eq_false]
      have hle : float8_cmp_internal (arr.getD i1' default).lower
          (arr.getD k default).lower ≤ 0 := lowerSorted_le hsl hk1 hk2
      have hsw := f8cmp_swap (arr.getD i1' default).lower
        (arr.getD k default).lower
      rw [hrl'E]
      omega
    have hcntL : (boxes.map (projInterval dim)).countP
        (fun iv => FLOAT8_LT iv.lower rl') = i1' := by
      rw [← harr.countP_eq]
      refine countP_eq_of_split arr _ i1' hi1'len ?_ ?_
      · intro k hk
        show FLOAT8_LT (arr.getD k default).lower rl' = true
        rw [FLOAT8_LT_iff]
        exact hlow k hk
      · intro k hk1 hk2
        exact hhigh k hk1 hk2
    have hau := advanceUpper_spec arrU c.2 i2 hi2
    rw [← hi2'E] at hau
    have hupU' : ∀ k, k < i2' →
        FLOAT8_LE (arrU.getD k default).upper c.2 = true := by
      intro k hk
      rcases Nat.lt_or_ge k i2 with hki | hki
      · have hh := hupU k hki
        rw [FLOAT8_LE_iff] at hh ⊢
        exact f8cmp_le_trans hh hluc
      · exact hau.2.2.1 k hki hk
    have hhighU : ∀ k, i2' ≤ k → k < arrU.length →
        FLOAT8_LE (arrU.getD k default).upper c.2 = false := by
      intro k hk1 hk2
      have hstop := hau.2.2.2 (by omega)
      rw [FLOAT8_LE_eq_false] at hstop ⊢
      have hle : float8_cmp_internal (arrU.getD i2' default).upper
          (arrU.getD k default).upper ≤ 0 := upperSorted_le hsu hk1 hk2
      have hsw0 := f8cmp_swap (arrU.getD i2' default).upper c.2
      have hlt0 : float8_cmp_internal c.2 (arrU.getD i2' default).upper < 0 := by
        omega
      have hlt1 := f8cmp_lt_of_lt_of_le hlt0 hle
      have hsw2 := f8cmp_swap c.2 (arrU.getD k default).upper
      omega
    have hcntU : (boxes.map (projInterval dim)).countP
        (fun iv => FLOAT8_LE iv.upper c.2) = i2' := by
      rw [← harrU.countP_eq]
      refine countP_eq_of_split arrU _ i2' hau.2.1 ?_ ?_
      · intro k hk
        exact hupU' k hk
      · intro k hk1 hk2
        exact hhighU k hk1 hk2
    have hupL' : ∀ k, k < i1' →
        FLOAT8_LE (arr.getD k default).upper c.2 = true := by
      intro k hk
      rcases Nat.lt_or_ge k i1 with hki | hki
      · have hh := hupL k hki
        rw [FLOAT8_LE_iff] at hh ⊢
        exact f8cmp_le_trans hh hluc
      · rcases Nat.eq_or_lt_of_le hki with rfl | hki'
        · rw [FLOAT8_LE_iff]
          exact hupi1c
        · exact hcs.2.2.2.2 k (by omega) (by omega)
    have himpl : ∀ iv ∈ boxes.map (projInterval dim),
        FLOAT8_LT iv.lower rl' = true → FLOAT8_LE iv.upper c.2 = true := by
      intro iv hiv hlt
      have hiv' : iv ∈ arr := harr.mem_iff.mpr hiv
      obtain ⟨k, hk, rfl⟩ := List.mem_iff_getElem.mp hiv'
      rw [← getD_eq_getElem' arr k hk] at hlt ⊢
      rcases Nat.lt_or_ge k i1' with hki | hki
      · exact hupL' k hki
      · rw [hhigh k hki hk] at hlt
        exact Bool.noConfusion hlt
    have hstep := g_tbox_consider_split_good hgood hn dim rl' c.2 i1' i2'
      hcntL.symm hcntU.symm himpl
    have hrun' : i1' < arr.length → ∀ k, k < i1' →
        float8_cmp_internal (arr.getD k default).lower
          (arr.getD i1' default).lower < 0 := by
      intro _ k hk
      rw [← hrl'E]
      exact hlow k hk
    have h2x : i1 + 1 + (consumeLower arr (arr.getD i1 default).lower (i1 + 1)
        (if FLOAT8_LT lu (arr.getD i1 default).upper = true then
          (arr.getD i1 default).upper else lu)).1 < arr.length := h2
    rw [scan1, dif_pos h]
    dsimp only
    rw [dif_pos h2x]
    exact ih hstep.1 hstep.2 hau.2.1 hrun' hupL' hupU'
  | case2 ctx i1 i2 lu h rl lu0 c i1' h2 =>
    intro hgood hn _ _ _ _
    have h2x : ¬(i1 + 1 + (consumeLower arr (arr.getD i1 default).lower (i1 + 1)
        (if FLOAT8_LT lu (arr.getD i1 default).upper = true then
          (arr.getD i1 default).upper else lu)).1 < arr.length) := h2
    rw [scan1, dif_pos h]
    dsimp only
    rw [dif_neg h2x]
    exact ⟨hgood, hn⟩
  | case3 ctx i1 i2 lu h =>
    intro hgood hn _ _ _ _
    rw [scan1, dif_neg h]
    exact ⟨hgood, hn⟩

/-- The second (descending) candidate-scan loop preserves the split-context
invariant.  The scan-state hypotheses say that every entry at or after `j2`
in the upper-sorted array has an upper bound strictly above the one at
`j2 - 1`, that all entries at or after `j1` in the lower-sorted array have
lower bounds at least the current `rl`, and that the lower bounds of the
processed part of the upper-sorted array are at least `rl` as well. -/
theorem scan2_good (boxes : List TBOX) (dim : Nat)
    (arr arrU : List SplitInterval)
    (harr : arr.Perm (boxes.map (projInterval dim)))
    (harrU : arrU.Perm (boxes.map (projInterval dim)))
    (hsl : lowerSorted arr) (hsu : upperSorted arrU) :
    ∀ (ctx : ConsiderSplitContext) (j1 j2 : Nat) (rl : F8),
      ctxGood boxes ctx → ctx.entriesCount = boxes.length →
      j1 ≤ arr.length → j2 ≤ arrU.length →
      (0 < j2 → ∀ k, j2 ≤ k → k < arrU.length →
        float8_cmp_internal (arrU.getD (j2 - 1) default).upper
          (arrU.getD k default).upper < 0) →
      (∀ k, j1 ≤ k → k < arr.length →
        FLOAT8_GE (arr.getD k default).lower rl = true) →
      (∀ k, j2 ≤ k → k < arrU.length →
        float8_cmp_internal rl (arrU.getD k default).lower ≤ 0) →
      ctxGood boxes (scan2 arr arrU dim ctx j1 j2 rl) ∧
      (scan2 arr arrU dim ctx j1 j2 rl).entriesCount = boxes.length := by
  intro ctx j1 j2 rl
  induction ctx, j1, j2, rl using scan2.induct arr arrU dim with
  | case1 ctx j1 j2 rl h lu rl0 c j2' h2 lu' j1' ih =>
    intro hgood hn hj1 hj2 hrun2 hinvA hinvU
    have hluE : lu = (arrU.getD (j2 - 1) default).upper := rfl
    have hrl0E : rl0 = if FLOAT8_GT rl (arrU.getD (j2 - 1) default).lower = true
        then (arrU.getD (j2 - 1) default).lower else rl := rfl
    have hcE : c = consumeUpper arrU lu (j2 - 1) rl0 := rfl
    have hj2'E : j2' = j2 - 1 - c.1 := rfl
    have hlu'E : lu' = (arrU.getD (j2' - 1) default).upper := rfl
    have hj1'E : j1' = retreatLower arr c.2 j1 := rfl
    have hrl0_le : float8_cmp_internal rl0 rl ≤ 0 := by
      rw [hrl0E]
      split
      · next hsp =>
        rw [FLOAT8_GT_iff] at hsp
        rw [f8cmp_swap]
        omega
      · simp [f8cmp_self]
    have hrl0_low : float8_cmp_internal rl0
        (arrU.getD (j2 - 1) default).lower ≤ 0 := by
      rw [hrl0E]
      split
      · simp [f8cmp_self]
      · next hsp =>
        have hsp' : ¬(FLOAT8_GT rl (arrU.getD (j2 - 1) default).lower = true) :=
          hsp
        rw [FLOAT8_GT_iff] at hsp'
        omega
    have hcu := consumeUpper_spec arrU lu (j2 - 1) rl0 (by omega)
    rw [← hcE, ← hj2'E] at hcu
    have hc2rl : float8_cmp_internal c.2 rl ≤ 0 :=
      f8cmp_le_trans hcu.2.2.2.1 hrl0_le
    have hrunEqU : ∀ k, j2' ≤ k → k < j2 → (arrU.getD k default).upper = lu := by
      intro k hk1 hk2
      rcases Nat.lt_or_ge k (j2 - 1) with hk' | hk'
      · exact (FLOAT8_EQ_iff.mp (hcu.2.1 k hk1 hk')).symm
      · have hke : k = j2 - 1 := by omega
        rw [hke, hluE]
    have hlu'lu : float8_cmp_internal lu' lu < 0 := by
      have hle : float8_cmp_internal (arrU.getD (j2' - 1) default).upper
          (arrU.getD (j2 - 1) default).upper ≤ 0 :=
        upperSorted_le hsu (by omega) (by omega)
      have hne : lu ≠ lu' := by
        intro heq
        have hf := hcu.2.2.1 h2
        rw [← hlu'E, ← heq] at hf
        simp [FLOAT8_EQ, f8cmp_self] at hf
      rw [hlu'E, hluE]
      rcases lt_or_eq_of_le hle with hlt | heq0
      · exact hlt
      · rw [← hlu'E, ← hluE] at heq0
        exact absurd (f8cmp_eq_zero_iff.mp heq0).symm hne
    have hhighU2 : ∀ k, j2' ≤ k → k < arrU.length →
        float8_cmp_internal lu' (arrU.getD k default).upper < 0 := by
      intro k hk1 hk2
      rcases Nat.lt_or_ge k j2 with hk' | hk'
      · rw [hrunEqU k hk1 hk']
        exact hlu'lu
      · have hh := hrun2 h k hk' hk2
        rw [← hluE] at hh
        exact f8cmp_lt_of_lt_of_le hlu'lu (le_of_lt hh)
    have hbTrue : ∀ k, k < j2' →
        FLOAT8_LE (arrU.getD k default).upper lu' = true := by
      intro k hk
      rw [FLOAT8_LE_iff, hlu'E]
      exact upperSorted_le hsu (by omega) (by omega)
    have hbFalse : ∀ k, j2' ≤ k → k < arrU.length →
        FLOAT8_LE (arrU.getD k default).upper lu' = false := by
      intro k hk1 hk2
      rw [FLOAT8_LE_eq_false]
      have hsw := f8cmp_swap lu' (arrU.getD k default).upper
      have := hhighU2 k hk1 hk2
      omega
    have hcntU2 : (boxes.map (projInterval dim)).countP
        (fun iv => FLOAT8_LE iv.upper lu') = j2' := by
      rw [← harrU.countP_eq]
      refine countP_eq_of_split arrU _ j2' (by omega) ?_ ?_
      · intro k hk
        exact hbTrue k hk
      · intro k hk1 hk2
        exact hbFalse k hk1 hk2
    have hrt := retreatLower_spec arr c.2 j1 hj1
    rw [← hj1'E] at hrt
    have haTrue : ∀ k, k < j1' →
        FLOAT8_LT (arr.getD k default).lower c.2 = true := by
      intro k hk
      have hstop := hrt.2.2 (by omega)
      rw [FLOAT8_GE_eq_false] at hstop
      have hle : float8_cmp_internal (arr.getD k default).lower
          (arr.getD (j1' - 1) default).lower ≤ 0 :=
        lowerSorted_le hsl (by omega) (by omega)
      rw [FLOAT8_LT_iff]
      exact f8cmp_lt_of_le_of_lt hle hstop
    have hinvHigh : ∀ k, j1 ≤ k → k < arr.length →
        float8_cmp_internal c.2 (arr.getD k default).lower ≤ 0 := by
      intro k hk1 hk2
      have hh := hinvA k hk1 hk2
      rw [FLOAT8_GE_iff] at hh
      have hsw := f8cmp_swap (arr.getD k default).lower rl
      exact f8cmp_le_trans hc2rl (by omega)
    have haFalse : ∀ k, j1' ≤ k → k < arr.length →
        FLOAT8_LT (arr.getD k default).lower c.2 = false := by
      intro k hk1 hk2
      rw [FLOAT8_LT_eq_false]
      rcases Nat.lt_or_ge k j1 with hk' | hk'
      · have hh := hrt.2.1 k hk1 hk'
        rw [FLOAT8_GE_iff] at hh
        omega
      · have hh := hinvHigh k hk' hk2
        have hsw := f8cmp_swap c.2 (arr.getD k default).lower
        omega
    have hcntL2 : (boxes.map (projInterval dim)).countP
        (fun iv => FLOAT8_LT iv.lower c.2) = j1' := by
      rw [← harr.countP_eq]
      refine countP_eq_of_split arr _ j1' (by omega) ?_ ?_
      · intro k hk
        exact haTrue k hk
      · intro k hk1 hk2
        exact haFalse k hk1 hk2
    have hlowU2 : ∀ k, j2' ≤ k → k < arrU.length →
        float8_cmp_internal c.2 (arrU.getD k default).lower ≤ 0 := by
      intro k hk1 hk2
      rcases Nat.lt_or_ge k (j2 - 1) with hk' | hk'
      · exact hcu.2.2.2.2 k hk1 hk'
      · rcases Nat.lt_or_ge k j2 with hk'' | hk'' 
        · have hke : k = j2 - 1 := by omega
          rw [hke]
          exact f8cmp_le_trans hcu.2.2.2.1 hrl0_low
        · exact f8cmp_le_trans hc2rl (hinvU k hk'' hk2)
    have himpl2 : ∀ iv ∈ boxes.map (projInterval dim),
        FLOAT8_LT iv.lower c.2 = true → FLOAT8_LE iv.upper lu' = true := by
      intro iv hiv hlt
      have hiv' : iv ∈ arrU := harrU.mem_iff.mpr hiv
      obtain ⟨k, hk, rfl⟩ := List.mem_iff_getElem.mp hiv'
      rw [← getD_eq_getElem' arrU k hk] at hlt ⊢
      rcases Nat.lt_or_ge k j2' with hki | hki
      · exact hbTrue k hki
      · have hh := hlowU2 k hki hk
        rw [FLOAT8_LT_iff] at hlt
        have hsw := f8cmp_swap c.2 (arrU.getD k default).lower
        omega
    have hstep := g_tbox_consider_split_good hgood hn dim c.2 lu' j1' j2'
      hcntL2.symm hcntU2.symm himpl2
    have hrun2' : 0 < j2' → ∀ k, j2' ≤ k → k < arrU.length →
        float8_cmp_internal (arrU.getD (j2' - 1) default).upper
          (arrU.getD k default).upper < 0 := by
      intro _ k hk1 hk2
      rw [← hlu'E]
      exact hhighU2 k hk1 hk2
    have hinvA' : ∀ k, j1' ≤ k → k < arr.length →
        FLOAT8_GE (arr.getD k default).lower c.2 = true := by
      intro k hk1 hk2
      rw [FLOAT8_GE_eq_not_LT, haFalse k hk1 hk2]
      rfl
    have h2x : 0 < j2 - 1 - (consumeUpper arrU (arrU.getD (j2 - 1) default).upper
        (j2 - 1) (if FLOAT8_GT rl (arrU.getD (j2 - 1) default).lower = true then
          (arrU.getD (j2 - 1) default).lower else rl)).1 := h2
    rw [scan2, dif_pos h]
    dsimp only
    rw [dif_pos h2x]
    exact ih hstep.1 hstep.2 (by omega) (by omega) hrun2' hinvA' hlowU2
  | case2 ctx j1 j2 rl h lu rl0 c j2' h2 =>
    intro hgood hn _ _ _ _ _
    have h2x : ¬(0 < j2 - 1 - (consumeUpper arrU
        (arrU.getD (j2 - 1) default).upper (j2 - 1)
        (if FLOAT8_GT rl (arrU.getD (j2 - 1) default).lower = true then
          (arrU.getD (j2 - 1) default).lower else rl)).1) := h2
    rw [scan2, dif_pos h]
    dsimp only
    rw [dif_neg h2x]
    exact ⟨hgood, hn⟩
  | case3 ctx j1 j2 rl h =>
    intro hgood hn _ _ _ _ _
    rw [scan2, dif_neg h]
    exact ⟨hgood, hn⟩

/-- One axis iteration preserves the split-context invariant: the scans are
started from the C initializations, where all scan-state hypotheses hold
vacuously. -/
theorem runAxis_good (boxes : List TBOX) (dim : Nat)
    (ctx : ConsiderSplitContext) (hgood : ctxGood boxes ctx)
    (hn : ctx.entriesCount = boxes.length) :
    ctxGood boxes (runAxis boxes dim ctx) ∧
    (runAxis boxes dim ctx).entriesCount = boxes.length := by
  unfold runAxis
  dsimp only
  have hsl := lowerSorted_mergeSort (boxes.map (projInterval dim))
  have hsu := upperSorted_mergeSort (boxes.map (projInterval dim))
  have hpl : ((boxes.map (projInterval dim)).mergeSort leLower).Perm
      (boxes.map (projInterval dim)) := List.mergeSort_perm _ _
  have hpu : ((boxes.map (projInterval dim)).mergeSort leUpper).Perm
      (boxes.map (projInterval dim)) := List.mergeSort_perm _ _
  have h1 := scan1_good boxes dim _ _ hpl hpu hsl hsu ctx 0 0
    (((boxes.map (projInterval dim)).mergeSort leUpper).getD 0 default).lower
    hgood hn (Nat.zero_le _)
    (fun _ k hk => absurd hk (Nat.not_lt_zero k))
    (fun k hk => absurd hk (Nat.not_lt_zero k))
    (fun k hk => absurd hk (Nat.not_lt_zero k))
  exact scan2_good boxes dim _ _ hpl hpu hsl hsu _ _ _ _ h1.1 h1.2
    (le_refl _) (le_refl _)
    (fun _ k hk1 hk2 => absurd hk1 (by omega))
    (fun k hk1 hk2 => absurd hk1 (by omega))
    (fun k hk1 hk2 => absurd hk1 (by omega))

/-- The context produced by the two axis iterations of `gist_tbox_picksplit`
is good: whenever it has accepted a split (`first = false`), at least
`splitQuota` of the entries fit each side. -/
theorem pickSplitContext_good (boxes : List TBOX) :
    ctxGood boxes (pickSplitContext boxes) ∧
    (pickSplitContext boxes).entriesCount = boxes.length := by
  have h0 : ctxGood boxes
      (initSplitContext boxes.length (computeBoundingBox boxes)) := by
    intro hf
    simp [initSplitContext] at hf
  have h0n : (initSplitContext boxes.length
      (computeBoundingBox boxes)).entriesCount = boxes.length := rfl
  have h1 := runAxis_good boxes 0 _ h0 h0n
  have h2 := runAxis_good boxes 1 _ h1.1 h1.2
  exact h2

/-! ### Assignment-phase bookkeeping for `gist_tbox_picksplit` -/

/-- Three-way partition of a list by two boolean tests: the "fits left
only", "does not fit left", and "fits both" sublists together are a
permutation of the list. -/
theorem partition3_perm {α : Type} (l : List α) (f g : α → Bool) :
    ((l.filter fun a => f a && !g a) ++ (l.filter fun a => !f a)
      ++ (l.filter fun a => f a && g a)).Perm l := by
  induction l with
  | nil => simp
  | cons a t ih =>
    simp only [List.filter_cons]
    by_cases hf : f a = true
    · by_cases hg : g a = true
      · simp only [hf, hg, Bool.not_true, Bool.and_false, Bool.and_true,
          if_false, if_true]
        exact List.perm_middle.trans (ih.cons a)
      · simp only [hf, Bool.not_eq_true] at hg
        simp only [hf, hg, Bool.not_true, Bool.not_false, Bool.and_false,
          Bool.and_true, if_false, if_true]
        simp only [List.cons_append]
        exact ih.cons a
    · simp only [Bool.not_eq_true] at hf
      simp only [hf, Bool.not_false, Bool.false_and, if_false, if_true]
      exact (List.perm_middle.append_right _).trans (ih.cons a)

/-- Projecting the `(offset, box)` entry list onto an axis yields the
projection of the boxes. -/
theorem entries_proj (boxes : List TBOX) (d : Nat) :
    ((boxes.enum.map fun p => (p.1 + 1, p.2)).map
        fun p => projInterval d p.2)
      = boxes.map (projInterval d) := by
  rw [List.map_map]
  have h2 : ((fun p : Nat × TBOX => projInterval d p.2)
      ∘ (fun p : Nat × TBOX => (p.1 + 1, p.2)))
      = (projInterval d) ∘ Prod.snd := rfl
  rw [h2, ← List.map_map, List.enum_map_snd]

/-- The offsets of the `(offset, box)` entry list are `1 .. n`. -/
theorem entries_offsets (boxes : List TBOX) :
    ((boxes.enum.map fun p => (p.1 + 1, p.2)).map fun p => p.1)
      = List.range' 1 boxes.length := by
  rw [List.map_map]
  have h : ((fun p : Nat × TBOX => p.1) ∘ (fun p : Nat × TBOX => (p.1 + 1, p.2)))
      = fun p : Nat × TBOX => p.1 + 1 := rfl
  rw [h]
  exact enum_offsets boxes

/-- Counting entries by a test on their axis projection equals counting the
projected boxes. -/
theorem entries_countP (boxes : List TBOX) (d : Nat) (q : SplitInterval → Bool) :
    (boxes.enum.map fun p => (p.1 + 1, p.2)).countP
        (fun p => q (projInterval d p.2))
      = (boxes.map (projInterval d)).countP q := by
  have h1 : (boxes.enum.map fun p => (p.1 + 1, p.2)).countP
      (fun p => q (projInterval d p.2))
      = boxes.enum.countP (fun p => q (projInterval d p.2)) :=
    List.countP_map _ _ _
  have h2 : (boxes.map (projInterval d)).countP q
      = boxes.countP (fun b => q (projInterval d b)) := List.countP_map _ _ _
  have h3 : boxes.countP (fun b => q (projInterval d b))
      = (boxes.enum.map Prod.snd).countP (fun b => q (projInterval d b)) := by
    rw [List.enum_map_snd]
  have h4 : (boxes.enum.map Prod.snd).countP (fun b => q (projInterval d b))
      = boxes.enum.countP (fun p => q (projInterval d p.2)) :=
    List.countP_map _ _ _
  rw [h1, h2, h3, h4]

/-- Specification of the first assignment loop: the three accumulated offset
lists are the prior lists extended, in input order, with the offsets of the
entries that fit only the left group, that do not fit the left group, and
that fit both groups, respectively. -/
theorem placeUnambiguous_spec (ctx : ConsiderSplitContext) :
    ∀ (l : List (Nat × TBOX)) (st : AssignState),
      (placeUnambiguous ctx l st).spl_left
        = st.spl_left ++ (l.filter (fun p =>
            FLOAT8_LE (projInterval ctx.dim p.2).upper ctx.leftUpper &&
            !FLOAT8_GE (projInterval ctx.dim p.2).lower ctx.rightLower)).map
              (fun p => p.1) ∧
      (placeUnambiguous ctx l st).spl_right
        = st.spl_right ++ (l.filter (fun p =>
            !FLOAT8_LE (projInterval ctx.dim p.2).upper ctx.leftUpper)).map
              (fun p => p.1) ∧
      (placeUnambiguous ctx l st).commons
        = st.commons ++ (l.filter (fun p =>
            FLOAT8_LE (projInterval ctx.dim p.2).upper ctx.leftUpper &&
            FLOAT8_GE (projInterval ctx.dim p.2).lower ctx.rightLower)).map
              (fun p => p.1)
  | [], st => by simp [placeUnambiguous]
  | (off, box) :: t, st => by
    have ih := placeUnambiguous_spec ctx t
    by_cases hL : FLOAT8_LE (projInterval ctx.dim box).upper ctx.leftUpper = true
    · by_cases hR : FLOAT8_GE (projInterval ctx.dim box).lower
          ctx.rightLower = true
      · have hstep : placeUnambiguous ctx ((off, box) :: t) st
            = placeUnambiguous ctx t { st with commons := st.commons ++ [off] } := by
          simp [placeUnambiguous, hL, hR]
        rw [hstep]
        obtain ⟨h1, h2, h3⟩ := ih { st with commons := st.commons ++ [off] }
        refine ⟨?_, ?_, ?_⟩
        · rw [h1]
          simp [List.filter_cons, hL, hR]
        · rw [h2]
          simp [List.filter_cons, hL, hR]
        · rw [h3]
          simp [List.filter_cons, hL, hR]
      · have hstep : placeUnambiguous ctx ((off, box) :: t) st
            = placeUnambiguous ctx t (placeLeft st box off) := by
          simp [placeUnambiguous, hL, hR]
        rw [hstep]
        obtain ⟨h1, h2, h3⟩ := ih (placeLeft st box off)
        refine ⟨?_, ?_, ?_⟩
        · rw [h1]
          simp [placeLeft, List.filter_cons, hL, hR]
        · rw [h2]
          simp [placeLeft, List.filter_cons, hL, hR]
        · rw [h3]
          simp [placeLeft, List.filter_cons, hL, hR]
    · have hstep : placeUnambiguous ctx ((off, box) :: t) st
          = placeUnambiguous ctx t (placeRight st box off) := by
        simp [placeUnambiguous, hL]
      rw [hstep]
      obtain ⟨h1, h2, h3⟩ := ih (placeRight st box off)
      refine ⟨?_, ?_, ?_⟩
      · rw [h1]
        simp [placeRight, List.filter_cons, hL]
      · rw [h2]
        simp [placeRight, List.filter_cons, hL]
      · rw [h3]
        simp [placeRight, List.filter_cons, hL]

/-- The common-entry distribution loop only moves the given offsets into the
two groups: the concatenation of the final groups is a permutation of the
prior groups plus the distributed offsets. -/
theorem distributeCommons_perm (boxes : List TBOX) (m : Nat) :
    ∀ (ces : List CommonEntry) (st : AssignState),
      ((distributeCommons boxes m ces st).spl_left
        ++ (distributeCommons boxes m ces st).spl_right).Perm
      ((st.spl_left ++ st.spl_right) ++ ces.map (fun ce => ce.index))
  | [], st => by simp [distributeCommons]
  | ce :: t, st => by
    have key : ∀ st' : AssignState,
        ((st'.spl_left = st.spl_left ++ [ce.index] ∧
            st'.spl_right = st.spl_right) ∨
          (st'.spl_left = st.spl_left ∧
            st'.spl_right = st.spl_right ++ [ce.index])) →
        ((distributeCommons boxes m t st').spl_left
          ++ (distributeCommons boxes m t st').spl_right).Perm
        ((st.spl_left ++ st.spl_right) ++ (ce :: t).map (fun ce => ce.index)) := by
      intro st' hcase
      have ih := distributeCommons_perm boxes m t st'
      refine ih.trans ?_
      rw [List.map_cons]
      rcases hcase with ⟨ha, hb⟩ | ⟨ha, hb⟩
      · rw [ha, hb]
        have h1 : (st.spl_left ++ [ce.index]) ++ st.spl_right
            = st.spl_left ++ ce.index :: st.spl_right := by
          simp
        rw [h1]
        refine (List.perm_middle.append_right _).trans ?_
        rw [List.cons_append]
        exact List.perm_middle.symm
      · rw [ha, hb]
        have h1 : (st.spl_left ++ (st.spl_right ++ [ce.index]))
              ++ t.map (fun ce => ce.index)
            = (st.spl_left ++ st.spl_right)
              ++ ce.index :: t.map (fun ce => ce.index) := by
          simp
        rw [h1]
    simp only [distributeCommons]
    split_ifs with c1 c2 c3
    · exact key _ (Or.inl (by simp [placeLeft]))
    · exact key _ (Or.inr (by simp [placeRight]))
    · exact key _ (Or.inl (by simp [placeLeft]))
    · exact key _ (Or.inr (by simp [placeRight]))

/-- The common-entry distribution loop reaches the quota `m` on both sides:
if each group can still reach `m` using the remaining common entries, the
total count is `n` and `2 m ≤ n`, then both final groups have at least `m`
entries and together exactly `n`. -/
theorem distributeCommons_fill (boxes : List TBOX) (m n : Nat) :
    ∀ (ces : List CommonEntry) (st : AssignState),
      m ≤ st.spl_left.length + ces.length →
      m ≤ st.spl_right.length + ces.length →
      st.spl_left.length + st.spl_right.length + ces.length = n →
      2 * m ≤ n →
      m ≤ (distributeCommons boxes m ces st).spl_left.length ∧
      m ≤ (distributeCommons boxes m ces st).spl_right.length ∧
      (distributeCommons boxes m ces st).spl_left.length
        + (distributeCommons boxes m ces st).spl_right.length = n
  | [], st => by
    intro h1 h2 h3 h4
    simp only [distributeCommons]
    simp only [List.length_nil] at h1 h2 h3
    exact ⟨by omega, by omega, by omega⟩
  | ce :: t, st => by
    intro h1 h2 h3 h4
    have ih := distributeCommons_fill boxes m n t
    simp only [List.length_cons] at h1 h2 h3
    simp only [distributeCommons]
    split_ifs with c1 c2 c3
    · exact ih _ (by simp [placeLeft]; omega) (by simp [placeLeft]; omega)
        (by simp [placeLeft]; omega) h4
    · exact ih _ (by simp [placeRight]; omega) (by simp [placeRight]; omega)
        (by simp [placeRight]; omega) h4
    · exact ih _ (by simp [placeLeft]; omega) (by simp [placeLeft]; omega)
        (by simp [placeLeft]; omega) h4
    · exact ih _ (by simp [placeRight]; omega) (by simp [placeRight]; omega)
        (by simp [placeRight]; omega) h4

/-- Two quotas always fit in an entry count of at least two. -/
theorem two_splitQuota_le (n : Nat) (h : 2 ≤ n) : 2 * splitQuota n ≤ n := by
  rw [splitQuota]
  rcases Nat.lt_or_ge n 5 with h5 | h5
  · interval_cases n <;> decide
  · omega

/-- The double-sorting path of `gist_tbox_picksplit`: when the axis scans
accepted a split (`first = false`), the two returned groups partition the
offsets `1 .. n` and each reaches the quota `ceil(LIMIT_RATIO * n)`. -/
theorem doubleSortingSplit_spec (boxes : List TBOX) (h2n : 2 ≤ boxes.length)
    (hns : (pickSplitContext boxes).first = false) :
    ((doubleSortingSplit boxes).spl_left
      ++ (doubleSortingSplit boxes).spl_right).Perm
        (List.range' 1 boxes.length) ∧
    splitQuota boxes.length ≤ (doubleSortingSplit boxes).spl_left.length ∧
    splitQuota boxes.length ≤ (doubleSortingSplit boxes).spl_right.length := by
  obtain ⟨hgood, hnn⟩ := pickSplitContext_good boxes
  have hq := hgood hns
  unfold doubleSortingSplit
  dsimp only
  set ctx := pickSplitContext boxes with hctx
  set entries := boxes.enum.map (fun p => (p.1 + 1, p.2)) with hentries
  set st0 := placeUnambiguous ctx entries ⟨[], [], zeroBox, zeroBox, []⟩
    with hst0
  obtain ⟨hsp1, hsp2, hsp3⟩ :=
    placeUnambiguous_spec ctx entries ⟨[], [], zeroBox, zeroBox, []⟩
  rw [← hst0] at hsp1 hsp2 hsp3
  simp only [List.nil_append] at hsp1 hsp2 hsp3
  have hL0 : st0.spl_left.length
      = (boxes.map (projInterval ctx.dim)).countP
          (fun iv => FLOAT8_LE iv.upper ctx.leftUpper &&
            !FLOAT8_GE iv.lower ctx.rightLower) := by
    rw [hsp1, List.length_map, ← List.countP_eq_length_filter, hentries]
    exact entries_countP boxes ctx.dim
      (fun iv => FLOAT8_LE iv.upper ctx.leftUpper &&
        !FLOAT8_GE iv.lower ctx.rightLower)
  have hR0 : st0.spl_right.length
      = (boxes.map (projInterval ctx.dim)).countP
          (fun iv => !FLOAT8_LE iv.upper ctx.leftUpper) := by
    rw [hsp2, List.length_map, ← List.countP_eq_length_filter, hentries]
    exact entries_countP boxes ctx.dim
      (fun iv => !FLOAT8_LE iv.upper ctx.leftUpper)
  have hC0 : st0.commons.length
      = (boxes.map (projInterval ctx.dim)).countP
          (fun iv => FLOAT8_LE iv.upper ctx.leftUpper &&
            FLOAT8_GE iv.lower ctx.rightLower) := by
    rw [hsp3, List.length_map, ← List.countP_eq_length_filter, hentries]
    exact entries_countP boxes ctx.dim
      (fun iv => FLOAT8_LE iv.upper ctx.leftUpper &&
        FLOAT8_GE iv.lower ctx.rightLower)
  have hqL : splitQuota boxes.length
      ≤ (boxes.map (projInterval ctx.dim)).countP
          (fun iv => FLOAT8_LE iv.upper ctx.leftUpper) := hq.1
  have hqR : splitQuota boxes.length
      ≤ (boxes.map (projInterval ctx.dim)).countP
          (fun iv => FLOAT8_GE iv.lower ctx.rightLower) := hq.2
  have hsplitL : (boxes.map (projInterval ctx.dim)).countP
      (fun iv => FLOAT8_LE iv.upper ctx.leftUpper)
      = (boxes.map (projInterval ctx.dim)).countP
          (fun iv => FLOAT8_LE iv.upper ctx.leftUpper &&
            FLOAT8_GE iv.lower ctx.rightLower)
        + (boxes.map (projInterval ctx.dim)).countP
          (fun iv => FLOAT8_LE iv.upper ctx.leftUpper &&
            !FLOAT8_GE iv.lower ctx.rightLower) :=
    countP_and_split _ _ _
  have hsplitR : (boxes.map (projInterval ctx.dim)).countP
      (fun iv => FLOAT8_GE iv.lower ctx.rightLower)
      = (boxes.map (projInterval ctx.dim)).countP
          (fun iv => FLOAT8_GE iv.lower ctx.rightLower &&
            FLOAT8_LE iv.upper ctx.leftUpper)
        + (boxes.map (projInterval ctx.dim)).countP
          (fun iv => FLOAT8_GE iv.lower ctx.rightLower &&
            !FLOAT8_LE iv.upper ctx.leftUpper) :=
    countP_and_split _ _ _
  have hcomm : (boxes.map (projInterval ctx.dim)).countP
      (fun iv => FLOAT8_GE iv.lower ctx.rightLower &&
        FLOAT8_LE iv.upper ctx.leftUpper)
      = (boxes.map (projInterval ctx.dim)).countP
          (fun iv => FLOAT8_LE iv.upper ctx.leftUpper &&
            FLOAT8_GE iv.lower ctx.rightLower) := by
    apply List.countP_congr
    intro iv _
    rw [Bool.and_comm]
  have hsub : (boxes.map (projInterval ctx.dim)).countP
      (fun iv => FLOAT8_GE iv.lower ctx.rightLower &&
        !FLOAT8_LE iv.upper ctx.leftUpper)
      ≤ (boxes.map (projInterval ctx.dim)).countP
          (fun iv => !FLOAT8_LE iv.upper ctx.leftUpper) := by
    apply List.countP_mono_left
    intro iv _ h
    simp only [Bool.and_eq_true] at h
    exact h.2
  have htotal : (boxes.map (projInterval ctx.dim)).countP
      (fun iv => FLOAT8_LE iv.upper ctx.leftUpper)
      + (boxes.map (projInterval ctx.dim)).countP
          (fun iv => !FLOAT8_LE iv.upper ctx.leftUpper)
      = boxes.length := by
    have h := List.length_eq_countP_add_countP
      (fun iv : SplitInterval => FLOAT8_LE iv.upper ctx.leftUpper)
      (l := boxes.map (projInterval ctx.dim))
    have hcong : (boxes.map (projInterval ctx.dim)).countP
        (fun iv => ¬FLOAT8_LE iv.upper ctx.leftUpper = true)
        = (boxes.map (projInterval ctx.dim)).countP
            (fun iv => !FLOAT8_LE iv.upper ctx.leftUpper) := by
      apply List.countP_congr
      intro iv _
      simp
    rw [List.length_map] at h
    omega
  have hL0C0 : splitQuota boxes.length
      ≤ st0.spl_left.length + st0.commons.length := by
    rw [hL0, hC0]
    omega
  have hR0C0 : splitQuota boxes.length
      ≤ st0.spl_right.length + st0.commons.length := by
    rw [hR0, hC0]
    omega
  have hsum : st0.spl_left.length + st0.spl_right.length + st0.commons.length
      = boxes.length := by
    rw [hL0, hR0, hC0]
    omega
  have h2m : 2 * splitQuota boxes.length ≤ boxes.length :=
    two_splitQuota_le boxes.length h2n
  have hoff : entries.map (fun p => p.1) = List.range' 1 boxes.length := by
    rw [hentries]
    exact entries_offsets boxes
  have hPERM : ((st0.spl_left ++ st0.spl_right) ++ st0.commons).Perm
      (List.range' 1 boxes.length) := by
    rw [hsp1, hsp2, hsp3, ← hoff]
    rw [← List.map_append, ← List.map_append]
    exact (partition3_perm entries
      (fun p => FLOAT8_LE (projInterval ctx.dim p.2).upper ctx.leftUpper)
      (fun p => FLOAT8_GE (projInterval ctx.dim p.2).lower
        ctx.rightLower)).map _
  rw [show (3 * boxes.length + 9) / 10 = splitQuota boxes.length from rfl]
  by_cases hc : 0 < st0.commons.length
  · rw [if_pos hc]
    set sorted := ((st0.commons.map fun off => CommonEntry.mk off
      (f8Abs ((box_penalty st0.leftBox (boxes.getD (off - 1) default)).sub
        (box_penalty st0.rightBox
          (boxes.getD (off - 1) default))))).mergeSort leCommon) with hsorted
    have hslen : sorted.length = st0.commons.length := by
      rw [hsorted, (List.mergeSort_perm _ leCommon).length_eq, List.length_map]
    have hmapidx : (sorted.map (fun ce => ce.index)).Perm st0.commons := by
      rw [hsorted]
      refine ((List.mergeSort_perm _ leCommon).map _).trans ?_
      rw [List.map_map]
      have he : st0.commons.map ((fun ce => ce.index) ∘ (fun off =>
          CommonEntry.mk off (f8Abs ((box_penalty st0.leftBox
            (boxes.getD (off - 1) default)).sub (box_penalty st0.rightBox
              (boxes.getD (off - 1) default)))))) = st0.commons := by
        have hid : ((fun ce : CommonEntry => ce.index) ∘ (fun off =>
            CommonEntry.mk off (f8Abs ((box_penalty st0.leftBox
              (boxes.getD (off - 1) default)).sub (box_penalty st0.rightBox
                (boxes.getD (off - 1) default))))))
            = fun off : Nat => off := rfl
        rw [hid]
        exact List.map_id' st0.commons
      rw [he]
    have hdist := distributeCommons_perm boxes (splitQuota boxes.length)
      sorted st0
    have hfill := distributeCommons_fill boxes (splitQuota boxes.length)
      boxes.length sorted st0 (by rw [hslen]; exact hL0C0)
      (by rw [hslen]; exact hR0C0) (by rw [hslen]; exact hsum) h2m
    exact ⟨hdist.trans ((List.Perm.append_left _ hmapidx).trans hPERM),
      hfill.1, hfill.2.1⟩
  · rw [if_neg hc]
    have hc0 : st0.commons.length = 0 := by omega
    have hcnil : st0.commons = [] := List.length_eq_zero.mp hc0
    refine ⟨?_, by omega, by omega⟩
    have hp := hPERM
    rw [hcnil, List.append_nil] at hp
    exact hp

/-- The quota `(3 n + 9) / 10` is exactly `ceil(0.3 * n)`. -/
theorem splitQuota_eq_ceil (n : Nat) :
    splitQuota n = ⌈(3 : ℚ) / 10 * n⌉₊ := by
  rw [splitQuota]
  rcases Nat.eq_zero_or_pos n with rfl | hn
  · simp
  · have hk : (3 * n + 9) / 10 = (3 * n + 9) / 10 := rfl
    symm
    rw [Nat.ceil_eq_iff (by omega)]
    have f1 : 10 * ((3 * n + 9) / 10) ≤ 3 * n + 9 := by omega
    have f2 : 3 * n ≤ 10 * ((3 * n + 9) / 10) := by omega
    constructor
    · have hc1 : (10 : ℚ) * ((3 * n + 9) / 10 : ℕ) ≤ 3 * (n : ℚ) + 9 := by
        exact_mod_cast f1
      have hge1 : 1 ≤ (3 * n + 9) / 10 := by omega
      rw [Nat.cast_sub hge1]
      rw [div_mul_eq_mul_div, lt_div_iff (by norm_num)]
      push_cast
      linarith
    · have hc2 : 3 * (n : ℚ) ≤ 10 * ((3 * n + 9) / 10 : ℕ) := by
        exact_mod_cast f2
      rw [div_mul_eq_mul_div, div_le_iff (by norm_num)]
      linarith

/-- **C2**: for every entry vector with `n ≥ 2` entries, the split returned
by `gist_tbox_picksplit` — through the double-sorting path with common-entry
distribution as well as through the trivial fallback path — places at least
`ceil(0.3 * n)` entries in each partition. -/
theorem picksplit_min_fill (boxes : List TBOX) (h : 2 ≤ boxes.length) :
    ⌈(3 : ℚ) / 10 * boxes.length⌉₊
        ≤ (gist_tbox_picksplit boxes).spl_left.length ∧
    ⌈(3 : ℚ) / 10 * boxes.length⌉₊
        ≤ (gist_tbox_picksplit boxes).spl_right.length := by
  rw [← splitQuota_eq_ceil]
  by_cases hf : (pickSplitContext boxes).first = true
  · rw [gist_tbox_picksplit, if_pos hf]
    obtain ⟨hl, hr⟩ := fallback_split_halves boxes
    rw [hl, hr]
    simp only [List.length_range']
    rw [splitQuota]
    constructor <;> omega
  · simp only [Bool.not_eq_true] at hf
    rw [gist_tbox_picksplit, if_neg (by simp [hf])]
    obtain ⟨_, h1, h2⟩ := doubleSortingSplit_spec boxes h hf
    exact ⟨h1, h2⟩

/-- Witness for C2 at a concrete two-entry vector. -/
theorem picksplit_min_fill_witness :
    ⌈(3 : ℚ) / 10 * ([zeroBox, zeroBox] : List TBOX).length⌉₊
        ≤ (gist_tbox_picksplit [zeroBox, zeroBox]).spl_left.length ∧
    ⌈(3 : ℚ) / 10 * ([zeroBox, zeroBox] : List TBOX).length⌉₊
        ≤ (gist_tbox_picksplit [zeroBox, zeroBox]).spl_right.length :=
  picksplit_min_fill [zeroBox, zeroBox] (by decide)

/-- **C3**: for every entry vector with `n ≥ 2` entries,
`gist_tbox_picksplit` returns two partitions that together are a permutation
of the offsets `1 .. n`; consequently the partitions are disjoint and their
union is exactly the full offset set, on both the double-sorting path and
the fallback path. -/
theorem picksplit_partition (boxes : List TBOX) (h : 2 ≤ boxes.length) :
    ((gist_tbox_picksplit boxes).spl_left
      ++ (gist_tbox_picksplit boxes).spl_right).Perm
        (List.range' 1 boxes.length) ∧
    (∀ i, i ∈ (gist_tbox_picksplit boxes).spl_left →
      i ∉ (gist_tbox_picksplit boxes).spl_right) ∧
    (∀ i, (i ∈ (gist_tbox_picksplit boxes).spl_left ∨
        i ∈ (gist_tbox_picksplit boxes).spl_right)
      ↔ (1 ≤ i ∧ i ≤ boxes.length)) := by
  have hperm : ((gist_tbox_picksplit boxes).spl_left
      ++ (gist_tbox_picksplit boxes).spl_right).Perm
        (List.range' 1 boxes.length) := by
    by_cases hf : (pickSplitContext boxes).first = true
    · rw [gist_tbox_picksplit, if_pos hf]
      obtain ⟨hl, hr⟩ := fallback_split_halves boxes
      rw [hl, hr, List.range'_append_1]
      have he : boxes.length - boxes.length / 2 + boxes.length / 2
          = boxes.length := by omega
      rw [he]
    · simp only [Bool.not_eq_true] at hf
      rw [gist_tbox_picksplit, if_neg (by simp [hf])]
      exact (doubleSortingSplit_spec boxes h hf).1
  refine ⟨hperm, ?_, ?_⟩
  · have hnd : ((gist_tbox_picksplit boxes).spl_left
        ++ (gist_tbox_picksplit boxes).spl_right).Nodup :=
      hperm.nodup_iff.mpr (List.nodup_range' 1 boxes.length 1 (by norm_num))
    rw [List.nodup_append] at hnd
    intro i hi hi2
    exact hnd.2.2 hi hi2
  · intro i
    rw [← List.mem_append, hperm.mem_iff, List.mem_range'_1]
    omega

/-- Witness for C3 at a concrete two-entry vector. -/
theorem picksplit_partition_witness :
    ((gist_tbox_picksplit [zeroBox, zeroBox]).spl_left
      ++ (gist_tbox_picksplit [zeroBox, zeroBox]).spl_right).Perm
        (List.range' 1 ([zeroBox, zeroBox] : List TBOX).length) :=
  (picksplit_partition [zeroBox, zeroBox] (by decide)).1
